import Mathlib

/-!
A verification development for the physical-memory allocator and
LRU/clock swap engine of the pa4 xv6 kernel (kernel/kalloc.c).

The state of the kernel that the allocator touches is embedded shallowly:
the page metadata array, the LRU head pointer, the page-table entries
reachable through walk (keyed by the pair of a page-table root and a
virtual address), the swap bitmap, the free list and physical memory
bytes.  Machine integers are Nat with explicit masks and mod two to the
sixty-fourth where the C source relies on uint64 truncation.  Calls that
the C source would crash on (a null pointer dereference) are modelled by
returning none; loops get explicit fuel, and exhausting the fuel is also
none, so a result of some always corresponds to a real terminating run
of the C code.
-/

namespace PA4

/-- Page size in bytes, from the kernel headers. -/
def PGSIZE : Nat := 4096

/-- Valid bit of a RISC-V page-table entry (bit 0). -/
def PTE_V : Nat := 1

/-- User-access bit of a RISC-V page-table entry (bit 4).  Modelled from
the spec: riscv.h is not under src/; this is the architectural position. -/
def PTE_U : Nat := 16

/-- Accessed bit of a RISC-V page-table entry (bit 6).  Modelled from
the spec: riscv.h is not under src/; this is the architectural position. -/
def PTE_A : Nat := 64

/-- Swapped flag of a page-table entry.  Modelled from the spec: the S
flag marks a swapped-out page and riscv.h is not under src/.  It is
placed in the software RSW field (bit 9) so that it lies inside the low
ten bits and does not overlap the PPN field, as required by the spec
table where a swapped PTE holds S = 1 together with a slot index in the
PPN field. -/
def PTE_S : Nat := 512

/-- Bitwise complement inside a 64-bit word, the meaning of the C tilde
operator applied to a uint64 constant. -/
def compl64 (m : Nat) : Nat := (2 ^ 64 - 1) ^^^ m

/-- One record of the page metadata array (struct page): the LRU links
and the back reference to the owning page table and virtual address.
A null C pointer is none; a record index i stands for &pages[i]. -/
structure Page where
  next : Option Nat
  prev : Option Nat
  pagetable : Nat
  vaddr : Nat

/-- The kernel state visible to kalloc.c: the pages array, the LRU head,
the page-table entries keyed by (pagetable, vaddr) as walk resolves
them (none when walk returns 0), the swap bitmap array, the kmem free
list, and physical memory bytes. -/
structure Kst where
  pages : Nat → Page
  lru_head : Option Nat
  ptes : Nat → Nat → Option Nat
  bitmap : Nat → Nat
  freelist : List Nat
  mem : Nat → Nat

/-- Events recorded by a run: lock operations, page-table walks, the
LRU excision of the victim, the disk write, the PTE rewrite, the TLB
flush, memset fills and free-list pushes. -/
inductive Ev where
  | acqLru
  | relLru
  | acqSwap
  | relSwap
  | acqKmem
  | relKmem
  | walkEv (pt va : Nat)
  | exciseEv (i : Nat)
  | diskWrite (pa slot : Nat)
  | pteWrite (pt va : Nat)
  | flushEv
  | memsetEv (pa val : Nat)
  | pushEv (pa : Nat)
deriving DecidableEq

/-- The three spinlocks of kalloc.c. -/
inductive LockId where
  | lru
  | swapb
  | kmem
deriving DecidableEq

/-- Effect of one event on the multiset of held locks. -/
def lockStep (st : List LockId) : Ev → List LockId
  | Ev.acqLru => LockId.lru :: st
  | Ev.relLru => st.erase LockId.lru
  | Ev.acqSwap => LockId.swapb :: st
  | Ev.relSwap => st.erase LockId.swapb
  | Ev.acqKmem => LockId.kmem :: st
  | Ev.relKmem => st.erase LockId.kmem
  | _ => st

/-- The locks held after a trace, starting from none held. -/
def heldAfter (tr : List Ev) : List LockId := tr.foldl lockStep []

/-- Update one record of the pages array. -/
def updF (g : Nat → Page) (i : Nat) (f : Page → Page) : Nat → Page :=
  fun k => if k = i then f (g k) else g k

/-- Update one record of the pages array inside the state. -/
def updPage (s : Kst) (i : Nat) (f : Page → Page) : Kst :=
  { s with pages := updF s.pages i f }

/-- Store a value through the PTE location that walk resolved for the
given page table and virtual address. -/
def setPte (s : Kst) (pt va v : Nat) : Kst :=
  { s with ptes := fun a b => if a = pt ∧ b = va then some v else s.ptes a b }

/-- The PTE value the back reference of record i resolves to. -/
def pteAt (s : Kst) (i : Nat) : Option Nat :=
  s.ptes (s.pages i).pagetable (s.pages i).vaddr

/-- lru_add of kalloc.c lines 94 to 115: link the record of a physical
address into the circular list, in front of the head (at the tail in
clock order); an empty list is created as a self-loop.  none models the
null dereference of lru_head->prev on a corrupt state. -/
def lru_add (pa : Nat) (s : Kst) : Option Kst :=
  let i := pa / PGSIZE
  match s.lru_head with
  | none =>
    some { (updPage (updPage s i (fun pg => { pg with next := some i }))
              i (fun pg => { pg with prev := some i })) with lru_head := some i }
  | some h =>
    match (s.pages h).prev with
    | none => none
    | some tl =>
      let s1 := updPage s i (fun pg => { pg with next := some h })
      let s2 := updPage s1 i (fun pg => { pg with prev := some tl })
      let s3 := updPage s2 tl (fun pg => { pg with next := some i })
      some (updPage s3 h (fun pg => { pg with prev := some i }))

/-- lru_remove of kalloc.c lines 119 to 143: a record whose next field
is null is ignored; a self-loop empties the list; otherwise the record
is spliced out, the head moves on if it pointed at the record, and the
links are nulled.  none models the null dereference of p->prev on a
corrupt state. -/
def lru_remove (pa : Nat) (s : Kst) : Option Kst :=
  let i := pa / PGSIZE
  match (s.pages i).next with
  | none => some s
  | some nx =>
    if nx = i then
      some (updPage (updPage { s with lru_head := none }
        i (fun pg => { pg with next := none })) i (fun pg => { pg with prev := none }))
    else
      match (s.pages i).prev with
      | none => none
      | some pv =>
        let s1 := updPage s pv (fun pg => { pg with next := some nx })
        let s2 := updPage s1 nx (fun pg => { pg with prev := some pv })
        let s3 := if s.lru_head = some i then { s2 with lru_head := some nx } else s2
        some (updPage (updPage s3 i (fun pg => { pg with next := none }))
          i (fun pg => { pg with prev := none }))

/-- The clock scan of swap_out, kalloc.c lines 163 to 180, with explicit
fuel for the unbounded while loop.  A candidate whose PTE is absent or
not valid is skipped; a set A bit is cleared and the hand advances; the
first valid candidate with A clear is the victim.  Each visit prepends
its walk event.  none is a run that is still looping after the given
number of visits (or a null next dereference). -/
def swapOutScan (s : Kst) (p : Nat) : Nat → Option (Kst × Nat × List Ev)
  | 0 => none
  | fuel + 1 =>
    let pg := s.pages p
    match s.ptes pg.pagetable pg.vaddr with
    | none =>
      match pg.next with
      | none => none
      | some q =>
        match swapOutScan s q fuel with
        | none => none
        | some (s1, v, tr) => some (s1, v, Ev.walkEv pg.pagetable pg.vaddr :: tr)
    | some w =>
      if w &&& PTE_V = 0 then
        match pg.next with
        | none => none
        | some q =>
          match swapOutScan s q fuel with
          | none => none
          | some (s1, v, tr) => some (s1, v, Ev.walkEv pg.pagetable pg.vaddr :: tr)
      else if w &&& PTE_A ≠ 0 then
        let s1 := setPte s pg.pagetable pg.vaddr (w &&& compl64 PTE_A)
        match pg.next with
        | none => none
        | some q =>
          match swapOutScan s1 q fuel with
          | none => none
          | some (s2, v, tr) => some (s2, v, Ev.walkEv pg.pagetable pg.vaddr :: tr)
      else
        some (s, p, [Ev.walkEv pg.pagetable pg.vaddr])

/-- The first-fit scan of the swap bitmap, kalloc.c lines 184 to 190:
the first index below the bound whose entry is zero. -/
def bitScan (bm : Nat → Nat) (bound : Nat) : Option Nat :=
  (List.range bound).find? (fun i => bm i == 0)

/-- The number of swap slots the source manages: the bitmap is declared
as an int array of SWAPMAX / 4 entries (kalloc.c line 37) and the
reservation loop of swap_out iterates that far (line 184). -/
def swapSlotCount (swapmax : Nat) : Nat := swapmax / 4

/-- The victim excision of swap_out, kalloc.c lines 199 to 210: a
self-loop empties the list, otherwise the record is spliced out and the
head always moves to its successor; the links are then nulled. -/
def exciseVictim (s : Kst) (p : Nat) : Option Kst :=
  if (s.pages p).next = some p then
    some (updPage (updPage { s with lru_head := none }
      p (fun pg => { pg with next := none })) p (fun pg => { pg with prev := none }))
  else
    match (s.pages p).prev, (s.pages p).next with
    | some pv, some nx =>
      let s1 := updPage s pv (fun pg => { pg with next := some nx })
      let s2 := updPage s1 nx (fun pg => { pg with prev := some pv })
      let s3 := { s2 with lru_head := some nx }
      some (updPage (updPage s3 p (fun pg => { pg with next := none }))
        p (fun pg => { pg with prev := none }))
    | _, _ => none

/-- The PTE rewrite of swap_out, kalloc.c lines 224 to 226: keep the low
ten bits, install the slot index shifted by ten (uint64 truncated),
clear V, set S. -/
def pteRewrite (w idx : Nat) : Nat :=
  (((w &&& 1023) ||| idx * 1024 % 2 ^ 64) &&& compl64 PTE_V) ||| PTE_S

/-- swap_out of kalloc.c lines 146 to 233.  The boolean argument is the
outcome of the disk write; the source ignores it, so it is threaded but
never read.  Returns none when the C run does not return (scan fuel
exhausted, or a null dereference on a corrupt state); otherwise the C
return value, the final state, and the event trace. -/
def swapOut (swapmax fuel : Nat) (s : Kst) (diskOk : Bool) :
    Option (Option Nat × Kst × List Ev) :=
  match s.lru_head with
  | none => some (none, s, [Ev.acqLru, Ev.relLru])
  | some h =>
    match swapOutScan s h fuel with
    | none => none
    | some (s1, p, scantr) =>
      match bitScan s1.bitmap (swapSlotCount swapmax) with
      | none =>
        some (none, s1, Ev.acqLru :: scantr ++ [Ev.acqSwap, Ev.relSwap, Ev.relLru])
      | some idx =>
        let s2 := { s1 with bitmap := fun j => if j = idx then 1 else s1.bitmap j }
        match exciseVictim s2 p with
        | none => none
        | some s3 =>
          let pa := p * PGSIZE
          let pt := (s3.pages p).pagetable
          let va := (s3.pages p).vaddr
          match s3.ptes pt va with
          | none => none
          | some w =>
            some (some pa, setPte s3 pt va (pteRewrite w idx),
              Ev.acqLru :: scantr ++
                [Ev.acqSwap, Ev.relSwap, Ev.exciseEv p, Ev.relLru,
                 Ev.diskWrite pa idx, Ev.pteWrite pt va, Ev.flushEv])

/-- kfree of kalloc.c lines 63 to 80: none is the panic on a misaligned
address, an address below the end of the kernel image, or an address at
or above PHYSTOP; otherwise the page is filled with the poison byte 1
before the lock is taken and pushed onto the free-list head. -/
def kfree (endAddr phystop pa : Nat) (s : Kst) : Option (Kst × List Ev) :=
  if pa % PGSIZE ≠ 0 ∨ pa < endAddr ∨ phystop ≤ pa then none
  else
    let s1 := { s with mem := fun a => if pa ≤ a ∧ a < pa + PGSIZE then 1 else s.mem a }
    some ({ s1 with freelist := pa :: s1.freelist },
      [Ev.memsetEv pa 1, Ev.acqKmem, Ev.pushEv pa, Ev.relKmem])

/-- kalloc of kalloc.c lines 239 to 261: pop the free-list head, or on
exhaustion take the result of swap_out directly; the returned page is
filled with the byte 5.  none propagates a non-returning swap_out run. -/
def kalloc (swapmax fuel : Nat) (s : Kst) (diskOk : Bool) :
    Option (Option Nat × Kst × List Ev) :=
  match s.freelist with
  | r :: rest =>
    let s1 := { s with freelist := rest }
    some (some r,
      { s1 with mem := fun a => if r ≤ a ∧ a < r + PGSIZE then 5 else s1.mem a },
      [Ev.acqKmem, Ev.relKmem, Ev.memsetEv r 5])
  | [] =>
    match swapOut swapmax fuel s diskOk with
    | none => none
    | some (none, s1, tr) => some (none, s1, Ev.acqKmem :: Ev.relKmem :: tr)
    | some (some pa, s1, tr) =>
      some (some pa,
        { s1 with mem := fun a => if pa ≤ a ∧ a < pa + PGSIZE then 5 else s1.mem a },
        (Ev.acqKmem :: Ev.relKmem :: tr) ++ [Ev.memsetEv pa 5])

/-- The consecutive links of a list hold under f: f maps each element to
its successor.  The closing link of a ring is stated separately. -/
def links (f : Nat → Option Nat) : List Nat → Prop
  | [] => True
  | [_] => True
  | a :: b :: rest => f a = some b ∧ links f (b :: rest)

/-- f traces the list as one ring: the consecutive links hold and the
last element maps back to the first. -/
def ringP (f : Nat → Option Nat) (L : List Nat) : Prop :=
  links f L ∧ ∀ a l, L.head? = some a → L.getLast? = some l → f l = some a

/-- The structural invariant of the LRU list over the pages array, with
the linked records abstracted as the list L in ring order: L has no
duplicates, a record is linked (non-null next) exactly when it is in L,
an unlinked record has both links null, the next fields trace L as one
ring and the prev fields trace it in the reverse direction. -/
def InvP (g : Nat → Page) (L : List Nat) : Prop :=
  L.Nodup ∧
  (∀ r, r ∈ L ↔ (g r).next ≠ none) ∧
  (∀ r, r ∉ L → (g r).next = none ∧ (g r).prev = none) ∧
  ringP (fun i => (g i).next) L ∧ ringP (fun i => (g i).prev) L.reverse

/-- The LRU invariant of a kernel state: some ring list realises InvP
and the head points at its first element (so the head is a member when
any record is linked and null when none is). -/
def Inv (s : Kst) : Prop := ∃ L, InvP s.pages L ∧ s.lru_head = L.head?

/-- Pointwise double-link coherence: following next and then prev (or
prev and then next) returns to the record. -/
def backOk (s : Kst) : Prop :=
  (∀ r j, (s.pages r).next = some j → (s.pages j).prev = some r) ∧
  (∀ r j, (s.pages r).prev = some j → (s.pages j).next = some r)

/-- The back reference of record r resolves to a valid PTE. -/
def goodPte (s : Kst) (r : Nat) : Prop :=
  ∃ w, pteAt s r = some w ∧ w &&& PTE_V ≠ 0

/-- The back reference of record r resolves to a valid PTE whose A bit
is clear: the clock hand stops here. -/
def readyPte (s : Kst) (r : Nat) : Prop :=
  ∃ w, pteAt s r = some w ∧ w &&& PTE_V ≠ 0 ∧ w &&& PTE_A = 0

/-- The LRU states reachable from the empty list (null head, all links
null) by lru_add on an unlinked record, lru_remove, and successful
swap_out runs (which excise the victim). -/
inductive Reaches : Kst → Prop where
  | init (s : Kst) (hp : ∀ i, (s.pages i).next = none ∧ (s.pages i).prev = none)
      (hh : s.lru_head = none) : Reaches s
  | add (s s1 : Kst) (pa : Nat) (h : Reaches s)
      (hu : (s.pages (pa / PGSIZE)).next = none)
      (hs : lru_add pa s = some s1) : Reaches s1
  | rem (s s1 : Kst) (pa : Nat) (h : Reaches s)
      (hs : lru_remove pa s = some s1) : Reaches s1
  | swp (s s1 : Kst) (swapmax fuel : Nat) (ok : Bool) (pa : Nat) (tr : List Ev)
      (h : Reaches s)
      (hs : swapOut swapmax fuel s ok = some (some pa, s1, tr)) : Reaches s1

/-- The empty LRU state over a zeroed machine. -/
def emptySt : Kst :=
  { pages := fun _ => { next := none, prev := none, pagetable := 0, vaddr := 0 },
    lru_head := none, ptes := fun _ _ => none, bitmap := fun _ => 0,
    freelist := [], mem := fun _ => 0 }

/-- The state after linking the frame at physical address 4096 into the
empty LRU list. -/
def theAdded : Kst := (lru_add 4096 emptySt).getD emptySt

/-- A reachable one-element LRU list whose only record has a stale back
reference: walk resolves no PTE for it, so the clock scan skips it
forever. -/
def badC1 : Kst :=
  { pages := fun k =>
      if k = 3 then { next := some 3, prev := some 3, pagetable := 7, vaddr := 9 }
      else { next := none, prev := none, pagetable := 0, vaddr := 0 },
    lru_head := some 3, ptes := fun _ _ => none, bitmap := fun _ => 0,
    freelist := [], mem := fun _ => 0 }

/-- A one-element LRU list whose record 7 is backed by the PTE value 1:
valid, A clear, and with the user bit clear.  The swap bitmap is empty
and the free list is empty. -/
def oneSt : Kst :=
  { pages := fun k =>
      if k = 7 then { next := some 7, prev := some 7, pagetable := 3, vaddr := 4 }
      else { next := none, prev := none, pagetable := 0, vaddr := 0 },
    lru_head := some 7,
    ptes := fun a b => if a = 3 ∧ b = 4 then some 1 else none,
    bitmap := fun _ => 0, freelist := [], mem := fun _ => 0 }

/-- The successful swap_out run on oneSt (swapmax 16, fuel 3). -/
def oneStRun : Option (Option Nat × Kst × List Ev) := swapOut 16 3 oneSt true

/-- The state oneStRun ends in. -/
def oneStPost : Kst := (oneStRun.getD (none, oneSt, [])).2.1

/-- The trace oneStRun emits. -/
def oneStTr : List Ev := (oneStRun.getD (none, oneSt, [])).2.2

/-- Unfolding lemma: the links of a two-or-more element list. -/
theorem links_cons_cons (f : Nat → Option Nat) (a b : Nat) (l : List Nat) :
    links f (a :: b :: l) ↔ f a = some b ∧ links f (b :: l) := Iff.rfl

/-- The tail of a linked list is linked. -/
theorem links_tail (f : Nat → Option Nat) (a : Nat) (l : List Nat)
    (h : links f (a :: l)) : links f l := by
  cases l with
  | nil => trivial
  | cons b t => exact h.2

/-- links over a list with one element appended: the inner links plus
the link from the old last element into the new one. -/
theorem links_append_single (f : Nat → Option Nat) (l : List Nat) (a : Nat) :
    links f (l ++ [a]) ↔ links f l ∧ ∀ x, l.getLast? = some x → f x = some a := by
  induction l with
  | nil => simp [links]
  | cons b t ih =>
    cases t with
    | nil => simp [links]
    | cons c t2 =>
      simp only [List.cons_append, links_cons_cons, List.getLast?_cons_cons] at ih ⊢
      rw [ih]
      tauto

/-- links only reads f at the elements before the last one. -/
theorem links_congr (f f1 : Nat → Option Nat) (l : List Nat)
    (h : ∀ x ∈ l.dropLast, f x = f1 x) (hl : links f l) : links f1 l := by
  induction l with
  | nil => trivial
  | cons b t ih =>
    cases t with
    | nil => trivial
    | cons c t2 =>
      refine ⟨?_, ih (fun x hx => h x ?_) hl.2⟩
      · rw [← h b (by simp)]
        exact hl.1
      · simp only [List.dropLast_cons₂, List.mem_cons] at hx ⊢
        exact Or.inr hx

/-- An element of a linked list is the last one, or f sends it to
another element of the list. -/
theorem links_mem_next (f : Nat → Option Nat) (l : List Nat) (a : Nat)
    (hl : links f l) (ha : a ∈ l) :
    l.getLast? = some a ∨ ∃ b, b ∈ l ∧ f a = some b := by
  induction l with
  | nil => cases ha
  | cons c t ih =>
    cases t with
    | nil =>
      simp only [List.mem_singleton] at ha
      subst ha
      left
      rfl
    | cons d t2 =>
      rcases List.mem_cons.mp ha with rfl | ha2
      · exact Or.inr ⟨d, by simp, hl.1⟩
      · rcases ih hl.2 ha2 with hx | ⟨b, hb, hfb⟩
        · left
          rwa [List.getLast?_cons_cons]
        · exact Or.inr ⟨b, List.mem_cons_of_mem _ hb, hfb⟩

/-- In a ring, f sends each element to an element of the ring. -/
theorem ringP_mem_next (f : Nat → Option Nat) (L : List Nat) (a : Nat)
    (hr : ringP f L) (ha : a ∈ L) : ∃ b, b ∈ L ∧ f a = some b := by
  rcases links_mem_next f L a hr.1 ha with hlast | h
  · obtain ⟨c, t, rfl⟩ : ∃ c t, L = c :: t := by
      cases L with
      | nil => cases ha
      | cons c t => exact ⟨c, t, rfl⟩
    exact ⟨c, by simp, hr.2 c a rfl hlast⟩
  · exact h

/-- Rotating a ring by one preserves the ring property. -/
theorem ringP_rotate_one (f : Nat → Option Nat) (l : List Nat) (h : ringP f l) :
    ringP f (l.rotate 1) := by
  cases l with
  | nil => simpa using h
  | cons a t =>
    rw [List.rotate_cons_succ, List.rotate_zero]
    obtain ⟨hl, hc⟩ := h
    constructor
    · rw [links_append_single]
      refine ⟨links_tail f a t hl, ?_⟩
      intro x hx
      apply hc a x rfl
      cases t with
      | nil => cases hx
      | cons c t2 => rwa [List.getLast?_cons_cons]
    · intro a1 l1 h1 h2
      cases t with
      | nil =>
        simp only [List.nil_append, List.head?_cons] at h1
        rw [List.getLast?_concat] at h2
        obtain rfl := Option.some.inj h1
        obtain rfl := Option.some.inj h2
        exact hc a a rfl rfl
      | cons c t2 =>
        simp only [List.cons_append, List.head?_cons] at h1
        rw [List.getLast?_concat] at h2
        obtain rfl := Option.some.inj h1
        obtain rfl := Option.some.inj h2
        exact hl.1

/-- Any rotation of a ring is a ring. -/
theorem ringP_rotate (f : Nat → Option Nat) (l : List Nat) (n : Nat)
    (hr : ringP f l) : ringP f (l.rotate n) := by
  induction n with
  | zero => simpa using hr
  | succ k ih =>
    have h : l.rotate (k + 1) = (l.rotate k).rotate 1 := by
      rw [List.rotate_rotate]
    rw [h]
    exact ringP_rotate_one f _ ih

/-- ringP transfers along list rotation. -/
theorem ringP_isRotated (f : Nat → Option Nat) {l l1 : List Nat}
    (h : l ~r l1) (hr : ringP f l) : ringP f l1 := by
  obtain ⟨n, rfl⟩ := h
  exact ringP_rotate f l n hr

/-- The structural invariant transfers along rotation of the abstract
ring list. -/
theorem InvP_rotated (g : Nat → Page) {L L1 : List Nat} (h : L ~r L1)
    (hi : InvP g L) : InvP g L1 := by
  obtain ⟨hn, hm, hu, hrn, hrp⟩ := hi
  refine ⟨(h.nodup_iff).mp hn, ?_, ?_, ringP_isRotated _ h hrn, ?_⟩
  · intro r
    rw [← h.mem_iff]
    exact hm r
  · intro r hr
    exact hu r (fun hx => hr (h.mem_iff.mp hx))
  · exact ringP_isRotated _ h.reverse hrp

/-- Any member of a list heads some rotation of it. -/
theorem mem_to_front {a : Nat} {L : List Nat} (h : a ∈ L) :
    ∃ R, L ~r (a :: R) := by
  obtain ⟨X, Y, rfl⟩ := List.append_of_mem h
  refine ⟨Y ++ X, ?_⟩
  have := @List.isRotated_append _ X (a :: Y)
  simpa using this

/-- Updating record i does not change other records. -/
theorem updF_ne (g : Nat → Page) (i : Nat) (f : Page → Page) (k : Nat)
    (h : k ≠ i) : updF g i f k = g k := by
  simp [updF, h]

/-- Updating record i applies f to it. -/
theorem updF_self (g : Nat → Page) (i : Nat) (f : Page → Page) :
    updF g i f i = f (g i) := by
  simp [updF]

/-- In a duplicate-free list the last element does not appear earlier. -/
theorem getLast_not_mem_dropLast (l : List Nat) (t : Nat)
    (hn : l.Nodup) (ht : l.getLast? = some t) : t ∉ l.dropLast := by
  intro hmem
  have hsplit : l.dropLast ++ [t] = l :=
    List.dropLast_append_getLast? t (by rw [Option.mem_def]; exact ht)
  rw [← hsplit] at hn
  rcases List.nodup_append.mp hn with ⟨-, -, hd⟩
  exact hd hmem (by simp)

/-- In a ring of two or more records, the next link of the first one
points at the second. -/
theorem InvP_next_head (g : Nat → Page) (p b : Nat) (R1 : List Nat)
    (hi : InvP g (p :: b :: R1)) : (g p).next = some b := by
  obtain ⟨-, -, -, hrn, -⟩ := hi
  exact hrn.1.1

/-- In a one-record ring both links of the record are self-loops. -/
theorem InvP_self (g : Nat → Page) (p : Nat) (hi : InvP g [p]) :
    (g p).next = some p ∧ (g p).prev = some p := by
  obtain ⟨-, -, -, hrn, hrp⟩ := hi
  exact ⟨hrn.2 p p rfl rfl, hrp.2 p p rfl rfl⟩

/-- The prev link of the head of a ring points at the last element. -/
theorem InvP_head_prev (g : Nat → Page) (L : List Nat) (h : Nat)
    (hi : InvP g L) (hh : L.head? = some h) :
    ∃ tl, L.getLast? = some tl ∧ (g h).prev = some tl := by
  obtain ⟨-, -, -, -, hrp⟩ := hi
  obtain ⟨ys, rfl⟩ := List.head?_eq_some_iff.mp hh
  refine ⟨(h :: ys).getLast (by simp), List.getLast?_eq_getLast _ _, ?_⟩
  exact hrp.2 _ h
    (by rw [List.head?_reverse]; exact List.getLast?_eq_getLast _ _)
    (by rw [List.getLast?_reverse]; exact hh)

/-- Core splice lemma: removing the front record p of a ring of two or
more records, rewiring the last record t to the new front b and nulling
the links of p, leaves a ring over the remaining records. -/
theorem splice_invP (g : Nat → Page) (p b t : Nat) (R1 : List Nat)
    (hi : InvP g (p :: b :: R1))
    (ht : (b :: R1).getLast? = some t) :
    InvP (updF (updF (updF (updF g t (fun pg => { pg with next := some b }))
        b (fun pg => { pg with prev := some t }))
        p (fun pg => { pg with next := none }))
        p (fun pg => { pg with prev := none })) (b :: R1) := by
  obtain ⟨hn, hm, hu, hrn, hrp⟩ := hi
  have hpR : p ∉ b :: R1 := (List.nodup_cons.mp hn).1
  have hnR : (b :: R1).Nodup := (List.nodup_cons.mp hn).2
  have hsplit : (b :: R1).dropLast ++ [t] = b :: R1 :=
    List.dropLast_append_getLast? t (by rw [Option.mem_def]; exact ht)
  have htR : t ∈ b :: R1 := by
    rw [← hsplit]
    simp
  have hpt : p ≠ t := fun h => hpR (h ▸ htR)
  have hpb : p ≠ b := fun h => hpR (h ▸ List.mem_cons_self b R1)
  have htdrop : t ∉ (b :: R1).dropLast := getLast_not_mem_dropLast _ t hnR ht
  set gs := updF (updF (updF (updF g t (fun pg => { pg with next := some b }))
      b (fun pg => { pg with prev := some t }))
      p (fun pg => { pg with next := none }))
      p (fun pg => { pg with prev := none }) with hgs
  have hvp_next : (gs p).next = none := by
    simp [hgs, updF]
  have hvp_prev : (gs p).prev = none := by
    simp [hgs, updF]
  have hval_ne_p : ∀ r, r ≠ p →
      gs r = updF (updF g t (fun pg => { pg with next := some b }))
        b (fun pg => { pg with prev := some t }) r := by
    intro r hr
    simp [hgs, updF, hr]
  have hv_t_next : (gs t).next = some b := by
    rw [hval_ne_p t (Ne.symm hpt)]
    by_cases htb : t = b
    · subst htb
      simp [updF]
    · simp [updF, htb]
  have hv_b_prev : (gs b).prev = some t := by
    rw [hval_ne_p b (Ne.symm hpb)]
    simp [updF]
  have hv_next_other : ∀ r, r ≠ p → r ≠ t → (gs r).next = (g r).next := by
    intro r h1 h2
    rw [hval_ne_p r h1]
    by_cases hrb : r = b
    · subst hrb
      simp [updF, h2]
    · simp [updF, hrb, h2]
  have hv_prev_other : ∀ r, r ≠ p → r ≠ b → (gs r).prev = (g r).prev := by
    intro r h1 h2
    rw [hval_ne_p r h1]
    by_cases hrt : r = t
    · subst hrt
      simp [updF, h2]
    · simp [updF, hrt, h2]
  refine ⟨hnR, ?_, ?_, ⟨?_, ?_⟩, ⟨?_, ?_⟩⟩
  · intro r
    by_cases hr1 : r = p
    · subst hr1
      rw [hvp_next]
      simp [hpR]
    · by_cases hr2 : r = t
      · subst hr2
        rw [hv_t_next]
        simp [htR]
      · rw [hv_next_other r hr1 hr2, ← hm r]
        simp [List.mem_cons, hr1]
  · intro r hr
    by_cases hr1 : r = p
    · subst hr1
      exact ⟨hvp_next, hvp_prev⟩
    · have hrt : r ≠ t := fun h => hr (h ▸ htR)
      have hrb : r ≠ b := fun h => hr (h ▸ List.mem_cons_self b R1)
      have horig := hu r (by
        intro hmem
        rcases List.mem_cons.mp hmem with h | h
        · exact hr1 h
        · exact hr h)
      rw [hv_next_other r hr1 hrt, hv_prev_other r hr1 hrb]
      exact horig
  · apply links_congr (fun i => (g i).next) _ _ ?_ (links_tail _ p _ hrn.1)
    intro x hx
    have hxR : x ∈ b :: R1 := List.dropLast_subset _ hx
    have hxp : x ≠ p := fun h => hpR (h ▸ hxR)
    have hxt : x ≠ t := fun h => htdrop (h ▸ hx)
    exact (hv_next_other x hxp hxt).symm
  · intro a l ha hl
    obtain rfl : b = a := by simpa using ha
    rw [ht] at hl
    obtain rfl := Option.some.inj hl
    exact hv_t_next
  · apply links_congr (fun i => (g i).prev) _ _ ?_ ?_
    · intro x hx
      have hxM : x ∈ (b :: R1).reverse := List.dropLast_subset _ hx
      have hxR : x ∈ b :: R1 := List.mem_reverse.mp hxM
      have hxp : x ≠ p := fun h => hpR (h ▸ hxR)
      have hxb : x ≠ b := fun h =>
        (getLast_not_mem_dropLast _ b (List.nodup_reverse.mpr hnR)
          (by rw [List.getLast?_reverse]; rfl)) (h ▸ hx)
      exact (hv_prev_other x hxp hxb).symm
    · have h1 : links (fun i => (g i).prev) ((b :: R1).reverse ++ [p]) := by
        have h2 := hrp.1
        rwa [List.reverse_cons] at h2
      exact ((links_append_single _ _ _).mp h1).1
  · intro a l ha hl
    rw [List.head?_reverse, ht] at ha
    rw [List.getLast?_reverse] at hl
    obtain rfl := Option.some.inj ha
    obtain rfl : b = l := by simpa using hl
    exact hv_b_prev

/-- The invariant for the empty ring: every record is unlinked. -/
theorem InvP_empty (g : Nat → Page)
    (h : ∀ r, (g r).next = none ∧ (g r).prev = none) : InvP g [] := by
  refine ⟨List.nodup_nil, ?_, ?_, ⟨trivial, ?_⟩, ⟨trivial, ?_⟩⟩
  · intro r
    simp [(h r).1]
  · intro r _
    exact h r
  · intro a l ha _
    cases ha
  · intro a l ha _
    cases ha

/-- The invariant for a one-record ring: the record loops to itself and
every other record is unlinked. -/
theorem InvP_singleton (g : Nat → Page) (i : Nat)
    (hnext : (g i).next = some i) (hprev : (g i).prev = some i)
    (hother : ∀ r, r ≠ i → (g r).next = none ∧ (g r).prev = none) :
    InvP g [i] := by
  refine ⟨by simp, ?_, ?_, ⟨trivial, ?_⟩, ⟨trivial, ?_⟩⟩
  · intro r
    by_cases hr : r = i
    · subst hr
      simp [hnext]
    · simp [hr, (hother r hr).1]
  · intro r hr
    exact hother r (by simpa using hr)
  · intro a l ha hl
    obtain rfl : i = a := by simpa using ha
    obtain rfl : i = l := by simpa using hl
    exact hnext
  · intro a l ha hl
    obtain rfl : i = a := by simpa using ha
    obtain rfl : i = l := by simpa using hl
    exact hprev

/-- Core append lemma: linking a fresh record i at the tail of a ring
(in front of the head, as lru_add does) preserves the invariant, with i
joining the ring as its new last element. -/
theorem append_invP (g : Nat → Page) (i h tl : Nat) (T : List Nat)
    (hi : InvP g (h :: T))
    (htl : (h :: T).getLast? = some tl)
    (hiL : i ∉ h :: T) :
    InvP (updF (updF (updF (updF g i (fun pg => { pg with next := some h }))
        i (fun pg => { pg with prev := some tl }))
        tl (fun pg => { pg with next := some i }))
        h (fun pg => { pg with prev := some i })) ((h :: T) ++ [i]) := by
  obtain ⟨hn, hm, hu, hrn, hrp⟩ := hi
  have hsplit : (h :: T).dropLast ++ [tl] = h :: T :=
    List.dropLast_append_getLast? tl (by rw [Option.mem_def]; exact htl)
  have htlL : tl ∈ h :: T := by
    rw [← hsplit]
    simp
  have hih : i ≠ h := fun hx => hiL (hx ▸ List.mem_cons_self h T)
  have hitl : i ≠ tl := fun hx => hiL (hx ▸ htlL)
  have htldrop : tl ∉ (h :: T).dropLast := getLast_not_mem_dropLast _ tl hn htl
  have hhdropRev : h ∉ (h :: T).reverse.dropLast :=
    getLast_not_mem_dropLast _ h (List.nodup_reverse.mpr hn)
      (by rw [List.getLast?_reverse]; rfl)
  set gs := updF (updF (updF (updF g i (fun pg => { pg with next := some h }))
      i (fun pg => { pg with prev := some tl }))
      tl (fun pg => { pg with next := some i }))
      h (fun pg => { pg with prev := some i }) with hgs
  have hv_i_next : (gs i).next = some h := by
    simp [hgs, updF, hih, hitl]
  have hv_i_prev : (gs i).prev = some tl := by
    simp [hgs, updF, hih, hitl]
  have hv_h_prev : (gs h).prev = some i := by
    simp [hgs, updF]
  have hv_tl_next : (gs tl).next = some i := by
    by_cases htlh : tl = h
    · subst htlh
      simp [hgs, updF]
    · simp [hgs, updF, htlh]
  have hv_next_other : ∀ r, r ≠ i → r ≠ tl → (gs r).next = (g r).next := by
    intro r h1 h2
    by_cases hrh : r = h
    · subst hrh
      simp [hgs, updF, h1, h2]
    · simp [hgs, updF, h1, h2, hrh]
  have hv_prev_other : ∀ r, r ≠ i → r ≠ h → (gs r).prev = (g r).prev := by
    intro r h1 h2
    by_cases hrtl : r = tl
    · subst hrtl
      simp [hgs, updF, h1, h2]
    · simp [hgs, updF, h1, h2, hrtl]
  have hnodup : ((h :: T) ++ [i]).Nodup := by
    rw [List.nodup_append]
    refine ⟨hn, by simp, ?_⟩
    intro a ha hb
    obtain rfl : a = i := by simpa using hb
    exact hiL ha
  refine ⟨hnodup, ?_, ?_, ⟨?_, ?_⟩, ⟨?_, ?_⟩⟩
  · intro r
    by_cases hr1 : r = i
    · subst hr1
      rw [hv_i_next]
      simp
    · by_cases hr2 : r = tl
      · subst hr2
        rw [hv_tl_next]
        exact iff_of_true (List.mem_append_left _ htlL) (by simp)
      · rw [hv_next_other r hr1 hr2, ← hm r]
        simp [List.mem_append, hr1]
  · intro r hr
    have hr1 : r ≠ i := fun hx => hr (hx ▸ (by simp))
    have hrL : r ∉ h :: T := fun hx => hr (List.mem_append_left _ hx)
    have hr2 : r ≠ tl := fun hx => hrL (hx ▸ htlL)
    have hrh : r ≠ h := fun hx => hrL (hx ▸ List.mem_cons_self h T)
    rw [hv_next_other r hr1 hr2, hv_prev_other r hr1 hrh]
    exact hu r hrL
  · rw [links_append_single]
    constructor
    · apply links_congr (fun x => (g x).next) _ _ ?_ hrn.1
      intro x hx
      have hxL : x ∈ h :: T := List.dropLast_subset _ hx
      have hx1 : x ≠ i := fun hy => hiL (hy ▸ hxL)
      have hx2 : x ≠ tl := fun hy => htldrop (hy ▸ hx)
      exact (hv_next_other x hx1 hx2).symm
    · intro x hxl
      rw [htl] at hxl
      obtain rfl := Option.some.inj hxl
      exact hv_tl_next
  · intro a l ha hl
    obtain rfl : h = a := by simpa using ha
    rw [List.getLast?_concat] at hl
    obtain rfl := Option.some.inj hl
    exact hv_i_next
  · have hrev : ((h :: T) ++ [i]).reverse = i :: (h :: T).reverse := by
      simp
    rw [hrev]
    obtain ⟨M, hM⟩ : ∃ M, (h :: T).reverse = tl :: M :=
      List.head?_eq_some_iff.mp (by rw [List.head?_reverse]; exact htl)
    rw [hM, links_cons_cons]
    constructor
    · exact hv_i_prev
    · rw [← hM]
      apply links_congr (fun x => (g x).prev) _ _ ?_ hrp.1
      intro x hx
      have hxL : x ∈ h :: T := List.mem_reverse.mp (List.dropLast_subset _ hx)
      have hx1 : x ≠ i := fun hy => hiL (hy ▸ hxL)
      have hx2 : x ≠ h := fun hy => hhdropRev (hy ▸ hx)
      exact (hv_prev_other x hx1 hx2).symm
  · intro a l ha hl
    have hrev : ((h :: T) ++ [i]).reverse = i :: (h :: T).reverse := by
      simp
    rw [hrev] at ha hl
    obtain rfl : i = a := by simpa using ha
    obtain ⟨M, hM⟩ : ∃ M, (h :: T).reverse = tl :: M :=
      List.head?_eq_some_iff.mp (by rw [List.head?_reverse]; exact htl)
    rw [hM, List.getLast?_cons_cons, ← hM, List.getLast?_reverse] at hl
    obtain rfl : h = l := by simpa using hl
    exact hv_h_prev

/-- The invariant only reads the pages array and the head pointer. -/
theorem Inv_congr (s s1 : Kst) (hp : s1.pages = s.pages)
    (hh : s1.lru_head = s.lru_head) (hi : Inv s) : Inv s1 := by
  obtain ⟨L, h1, h2⟩ := hi
  exact ⟨L, by rw [hp]; exact h1, by rw [hh, h2]⟩

/-- A record of a ring whose next link is a self-loop is the whole ring. -/
theorem InvP_self_loop (g : Nat → Page) (L : List Nat) (i : Nat)
    (hi : InvP g L) (hmem : i ∈ L) (hloop : (g i).next = some i) : L = [i] := by
  obtain ⟨R, hrot⟩ := mem_to_front hmem
  have hIr := InvP_rotated g hrot hi
  cases R with
  | nil =>
    obtain ⟨n, hn⟩ := hrot
    have hlen : L.length = 1 := by
      rw [← List.length_rotate L n, hn]
      rfl
    obtain ⟨x, rfl⟩ : ∃ x, L = [x] := by
      cases L with
      | nil => cases hlen
      | cons a t =>
        cases t with
        | nil => exact ⟨a, rfl⟩
        | cons b t2 => simp at hlen
    rw [List.rotate_singleton] at hn
    obtain rfl : x = i := by
      have := List.cons.inj hn
      exact this.1
    rfl
  | cons b R1 =>
    have hb := InvP_next_head g i b R1 hIr
    rw [hloop] at hb
    obtain rfl : i = b := Option.some.inj hb
    have hnd := hIr.1
    simp at hnd

/-- lru_add preserves the LRU structural invariant when the record being
linked is unlinked. -/
theorem lru_add_inv (pa : Nat) (s s1 : Kst)
    (hu : (s.pages (pa / PGSIZE)).next = none)
    (hi : Inv s) (hs : lru_add pa s = some s1) : Inv s1 := by
  obtain ⟨L, hIP, hhd⟩ := hi
  cases L with
  | nil =>
    have hh : s.lru_head = none := by rw [hhd]; rfl
    simp only [lru_add, hh] at hs
    obtain rfl := Option.some.inj hs
    refine ⟨[pa / PGSIZE], InvP_singleton _ _ ?_ ?_ ?_, rfl⟩
    · simp [updPage, updF]
    · simp [updPage, updF]
    · intro r hr
      have h2 := hIP.2.2.1 r (by simp)
      simp only [updPage, updF]
      simpa [hr] using h2
  | cons h0 T =>
    have hh : s.lru_head = some h0 := by rw [hhd]; rfl
    obtain ⟨tl, htl, hprev⟩ := InvP_head_prev s.pages (h0 :: T) h0 hIP rfl
    have hiL : pa / PGSIZE ∉ h0 :: T := fun hmem => (hIP.2.1 _).mp hmem hu
    simp only [lru_add, hh, hprev] at hs
    obtain rfl := Option.some.inj hs
    refine ⟨(h0 :: T) ++ [pa / PGSIZE],
      append_invP s.pages (pa / PGSIZE) h0 tl T hIP htl hiL, ?_⟩
    show s.lru_head = _
    rw [hh]
    rfl

/-- lru_remove preserves the LRU structural invariant. -/
theorem lru_remove_inv (pa : Nat) (s s1 : Kst) (hi : Inv s)
    (hs : lru_remove pa s = some s1) : Inv s1 := by
  obtain ⟨L, hIP, hhd⟩ := hi
  cases hnx : (s.pages (pa / PGSIZE)).next with
  | none =>
    simp only [lru_remove, hnx] at hs
    obtain rfl := Option.some.inj hs
    exact ⟨L, hIP, hhd⟩
  | some nx =>
    have hmem : pa / PGSIZE ∈ L := (hIP.2.1 _).mpr (by rw [hnx]; simp)
    by_cases hloop : nx = pa / PGSIZE
    · subst hloop
      have hL : L = [pa / PGSIZE] := InvP_self_loop s.pages L _ hIP hmem hnx
      subst hL
      simp only [lru_remove, hnx, if_pos rfl] at hs
      obtain rfl := Option.some.inj hs
      refine ⟨[], InvP_empty _ ?_, rfl⟩
      intro r
      by_cases hr : r = pa / PGSIZE
      · subst hr
        constructor
        · simp [updPage, updF]
        · simp [updPage, updF]
      · have h2 := hIP.2.2.1 r (by simp [hr])
        simp only [updPage, updF]
        simpa [hr] using h2
    · by_cases hhead : s.lru_head = some (pa / PGSIZE)
      · obtain ⟨T, hLT⟩ := List.head?_eq_some_iff.mp (hhd ▸ hhead)
        subst hLT
        cases T with
        | nil =>
          have hself := (InvP_self s.pages _ hIP).1
          rw [hnx] at hself
          exact absurd (Option.some.inj hself) hloop
        | cons b T1 =>
          have hb := InvP_next_head s.pages _ b T1 hIP
          rw [hnx] at hb
          obtain rfl : nx = b := Option.some.inj hb
          obtain ⟨t, htL, hprev⟩ := InvP_head_prev s.pages _ _ hIP rfl
          simp only [lru_remove, hnx, if_neg hloop, hprev, if_pos hhead] at hs
          obtain rfl := Option.some.inj hs
          refine ⟨nx :: T1, ?_, rfl⟩
          exact splice_invP s.pages (pa / PGSIZE) nx t T1 hIP
            (by rw [← List.getLast?_cons_cons (a := pa / PGSIZE)]; exact htL)
      · obtain ⟨h0, T, hLT, hh0⟩ : ∃ h0 T, L = h0 :: T ∧ s.lru_head = some h0 := by
          cases L with
          | nil => cases hmem
          | cons a t => exact ⟨a, t, rfl, by rw [hhd]; rfl⟩
        subst hLT
        have hih0 : pa / PGSIZE ≠ h0 := by
          intro hx
          rw [hx] at hhead
          exact hhead hh0
        have hmemT : pa / PGSIZE ∈ T := by
          rcases List.mem_cons.mp hmem with hx | hx
          · exact absurd hx hih0
          · exact hx
        obtain ⟨X, Y, rfl⟩ := List.append_of_mem hmemT
        have hrot : (h0 :: (X ++ pa / PGSIZE :: Y)) ~r
            (pa / PGSIZE :: (Y ++ (h0 :: X))) := by
          have h1 := @List.isRotated_append _ (h0 :: X) (pa / PGSIZE :: Y)
          simpa using h1
        have hIr := InvP_rotated s.pages hrot hIP
        obtain ⟨c, R1, hcR⟩ : ∃ c R1, Y ++ (h0 :: X) = c :: R1 := by
          cases Y with
          | nil => exact ⟨h0, X, rfl⟩
          | cons y Y1 => exact ⟨y, Y1 ++ (h0 :: X), rfl⟩
        rw [hcR] at hIr
        have hb := InvP_next_head s.pages _ c R1 hIr
        rw [hnx] at hb
        obtain rfl : nx = c := Option.some.inj hb
        obtain ⟨t, htL, hprev⟩ := InvP_head_prev s.pages _ _ hIr rfl
        simp only [lru_remove, hnx, if_neg hloop, hprev, if_neg hhead] at hs
        obtain rfl := Option.some.inj hs
        have hsp := splice_invP s.pages (pa / PGSIZE) nx t R1 hIr
          (by rw [← List.getLast?_cons_cons (a := pa / PGSIZE)]; exact htL)
        have hrot2 : (nx :: R1) ~r (h0 :: (X ++ Y)) := by
          rw [← hcR]
          have h1 := @List.isRotated_append _ Y (h0 :: X)
          have h2 : (h0 :: X) ++ Y = h0 :: (X ++ Y) := by simp
          rw [h2] at h1
          exact h1
        refine ⟨h0 :: (X ++ Y), InvP_rotated _ hrot2 hsp, ?_⟩
        show s.lru_head = _
        rw [hh0]
        rfl

/-- The victim excision inside swap_out preserves the LRU structural
invariant; the head always moves to the next record of the victim. -/
theorem excise_inv (s s1 : Kst) (p : Nat) (L : List Nat)
    (hIP : InvP s.pages L) (hmem : p ∈ L)
    (hs : exciseVictim s p = some s1) : Inv s1 := by
  obtain ⟨R, hrot⟩ := mem_to_front hmem
  have hIr := InvP_rotated s.pages hrot hIP
  cases R with
  | nil =>
    have hself := (InvP_self s.pages p hIr).1
    simp only [exciseVictim, hself, if_pos rfl] at hs
    obtain rfl := Option.some.inj hs
    refine ⟨[], InvP_empty _ ?_, rfl⟩
    intro r
    by_cases hr : r = p
    · subst hr
      constructor
      · simp [updPage, updF]
      · simp [updPage, updF]
    · have h2 := hIr.2.2.1 r (by simp [hr])
      simp only [updPage, updF]
      simpa [hr] using h2
  | cons c R1 =>
    have hc : (s.pages p).next = some c := InvP_next_head _ _ _ _ hIr
    have hcp : c ≠ p := by
      intro hx
      have hnd := hIr.1
      rw [hx] at hnd
      simp at hnd
    have hne : (some c : Option Nat) ≠ some p := by
      intro hx
      exact hcp (Option.some.inj hx)
    obtain ⟨t, htL, hprev⟩ := InvP_head_prev s.pages _ _ hIr rfl
    simp only [exciseVictim, hc, hprev, if_neg hne] at hs
    obtain rfl := Option.some.inj hs
    refine ⟨c :: R1, ?_, rfl⟩
    exact splice_invP s.pages p c t R1 hIr
      (by rw [← List.getLast?_cons_cons (a := p)]; exact htL)

/-- Basic facts about a terminating clock scan: only PTE contents
change (pages, head, bitmap, free list and memory stay), the victim
resolves to a valid PTE whose A bit is clear in the post-scan state,
and the trace is walk events ending with the walk of the victim. -/
theorem scan_basic : ∀ (fuel : Nat) (s s1 : Kst) (p v : Nat) (tr : List Ev),
    swapOutScan s p fuel = some (s1, v, tr) →
    s1.pages = s.pages ∧ s1.lru_head = s.lru_head ∧ s1.bitmap = s.bitmap ∧
      s1.freelist = s.freelist ∧ s1.mem = s.mem ∧
      (∃ w, pteAt s1 v = some w ∧ w &&& PTE_V ≠ 0 ∧ w &&& PTE_A = 0) ∧
      (∀ e ∈ tr, ∃ a b, e = Ev.walkEv a b) ∧
      tr.getLast? = some (Ev.walkEv (s1.pages v).pagetable (s1.pages v).vaddr)
  | 0, s, s1, p, v, tr, h => by cases h
  | fuel + 1, s, s1, p, v, tr, h => by
    simp only [swapOutScan] at h
    cases hpte : s.ptes (s.pages p).pagetable (s.pages p).vaddr with
    | none =>
      simp only [hpte] at h
      cases hnx : (s.pages p).next with
      | none =>
        simp only [hnx] at h
        cases h
      | some q =>
        simp only [hnx] at h
        cases hrec : swapOutScan s q fuel with
        | none =>
          simp only [hrec] at h
          cases h
        | some res =>
          obtain ⟨s2, v2, tr2⟩ := res
          simp only [hrec] at h
          simp only [Option.some.injEq, Prod.mk.injEq] at h
          obtain ⟨rfl, rfl, rfl⟩ := h
          obtain ⟨ha, hb, hc, hd, hm, he, hf, hg⟩ := scan_basic fuel s s2 q v2 tr2 hrec
          refine ⟨ha, hb, hc, hd, hm, he, ?_, ?_⟩
          · intro e hme
            rcases List.mem_cons.mp hme with rfl | hme2
            · exact ⟨_, _, rfl⟩
            · exact hf e hme2
          · cases tr2 with
            | nil => simp at hg
            | cons e2 t2 =>
              rw [List.getLast?_cons_cons]
              exact hg
    | some w =>
      simp only [hpte] at h
      by_cases hv : w &&& PTE_V = 0
      · rw [if_pos hv] at h
        cases hnx : (s.pages p).next with
        | none =>
          simp only [hnx] at h
          cases h
        | some q =>
          simp only [hnx] at h
          cases hrec : swapOutScan s q fuel with
          | none =>
            simp only [hrec] at h
            cases h
          | some res =>
            obtain ⟨s2, v2, tr2⟩ := res
            simp only [hrec] at h
            simp only [Option.some.injEq, Prod.mk.injEq] at h
            obtain ⟨rfl, rfl, rfl⟩ := h
            obtain ⟨ha, hb, hc, hd, hm, he, hf, hg⟩ := scan_basic fuel s s2 q v2 tr2 hrec
            refine ⟨ha, hb, hc, hd, hm, he, ?_, ?_⟩
            · intro e hme
              rcases List.mem_cons.mp hme with rfl | hme2
              · exact ⟨_, _, rfl⟩
              · exact hf e hme2
            · cases tr2 with
              | nil => simp at hg
              | cons e2 t2 =>
                rw [List.getLast?_cons_cons]
                exact hg
      · rw [if_neg hv] at h
        by_cases hA : w &&& PTE_A ≠ 0
        · rw [if_pos hA] at h
          cases hnx : (s.pages p).next with
          | none =>
            simp only [hnx] at h
            cases h
          | some q =>
            simp only [hnx] at h
            cases hrec : swapOutScan
                (setPte s (s.pages p).pagetable (s.pages p).vaddr (w &&& compl64 PTE_A))
                q fuel with
            | none =>
              simp only [hrec] at h
              cases h
            | some res =>
              obtain ⟨s2, v2, tr2⟩ := res
              simp only [hrec] at h
              simp only [Option.some.injEq, Prod.mk.injEq] at h
              obtain ⟨rfl, rfl, rfl⟩ := h
              obtain ⟨ha, hb, hc, hd, hm, he, hf, hg⟩ :=
                scan_basic fuel _ s2 q v2 tr2 hrec
              refine ⟨ha, hb, hc, hd, hm, he, ?_, ?_⟩
              · intro e hme
                rcases List.mem_cons.mp hme with rfl | hme2
                · exact ⟨_, _, rfl⟩
                · exact hf e hme2
              · cases tr2 with
                | nil => simp at hg
                | cons e2 t2 =>
                  rw [List.getLast?_cons_cons]
                  exact hg
        · rw [if_neg hA] at h
          simp only [Option.some.injEq, Prod.mk.injEq] at h
          obtain ⟨rfl, rfl, rfl⟩ := h
          refine ⟨rfl, rfl, rfl, rfl, rfl, ⟨w, hpte, hv, not_ne_iff.mp hA⟩, ?_, rfl⟩
          intro e hme
          rcases List.mem_cons.mp hme with rfl | hme2
          · exact ⟨_, _, rfl⟩
          · cases hme2

/-- A terminating clock scan starting inside the ring returns a victim
that is a member of the ring. -/
theorem scan_victim_mem : ∀ (fuel : Nat) (s s1 : Kst) (p v : Nat) (tr : List Ev)
    (L : List Nat), InvP s.pages L → p ∈ L →
    swapOutScan s p fuel = some (s1, v, tr) → v ∈ L
  | 0, s, s1, p, v, tr, L, _, _, h => by cases h
  | fuel + 1, s, s1, p, v, tr, L, hIP, hp, h => by
    have hstep : ∀ q, (s.pages p).next = some q → q ∈ L := by
      intro q hq
      obtain ⟨b, hbL, hfb⟩ := ringP_mem_next _ L p hIP.2.2.2.1 hp
      rw [hq] at hfb
      obtain rfl := Option.some.inj hfb
      exact hbL
    simp only [swapOutScan] at h
    cases hpte : s.ptes (s.pages p).pagetable (s.pages p).vaddr with
    | none =>
      simp only [hpte] at h
      cases hnx : (s.pages p).next with
      | none =>
        simp only [hnx] at h
        cases h
      | some q =>
        simp only [hnx] at h
        cases hrec : swapOutScan s q fuel with
        | none =>
          simp only [hrec] at h
          cases h
        | some res =>
          obtain ⟨s2, v2, tr2⟩ := res
          simp only [hrec] at h
          simp only [Option.some.injEq, Prod.mk.injEq] at h
          obtain ⟨rfl, rfl, rfl⟩ := h
          exact scan_victim_mem fuel s s2 q v2 tr2 L hIP (hstep q hnx) hrec
    | some w =>
      simp only [hpte] at h
      by_cases hv : w &&& PTE_V = 0
      · rw [if_pos hv] at h
        cases hnx : (s.pages p).next with
        | none =>
          simp only [hnx] at h
          cases h
        | some q =>
          simp only [hnx] at h
          cases hrec : swapOutScan s q fuel with
          | none =>
            simp only [hrec] at h
            cases h
          | some res =>
            obtain ⟨s2, v2, tr2⟩ := res
            simp only [hrec] at h
            simp only [Option.some.injEq, Prod.mk.injEq] at h
            obtain ⟨rfl, rfl, rfl⟩ := h
            exact scan_victim_mem fuel s s2 q v2 tr2 L hIP (hstep q hnx) hrec
      · rw [if_neg hv] at h
        by_cases hA : w &&& PTE_A ≠ 0
        · rw [if_pos hA] at h
          cases hnx : (s.pages p).next with
          | none =>
            simp only [hnx] at h
            cases h
          | some q =>
            simp only [hnx] at h
            cases hrec : swapOutScan
                (setPte s (s.pages p).pagetable (s.pages p).vaddr (w &&& compl64 PTE_A))
                q fuel with
            | none =>
              simp only [hrec] at h
              cases h
            | some res =>
              obtain ⟨s2, v2, tr2⟩ := res
              simp only [hrec] at h
              simp only [Option.some.injEq, Prod.mk.injEq] at h
              obtain ⟨rfl, rfl, rfl⟩ := h
              exact scan_victim_mem fuel
                (setPte s (s.pages p).pagetable (s.pages p).vaddr (w &&& compl64 PTE_A))
                s2 q v2 tr2 L hIP (hstep q hnx) hrec
        · rw [if_neg hA] at h
          simp only [Option.some.injEq, Prod.mk.injEq] at h
          obtain ⟨rfl, rfl, rfl⟩ := h
          exact hp

/-- Destructuring of a successful swap_out run: the head existed, the
scan found a victim, a slot was reserved, the victim was excised, its
PTE was found and rewritten, and the trace has the fixed protocol
shape. -/
theorem swapOut_success (swapmax fuel : Nat) (s s1 : Kst) (ok : Bool) (pa : Nat)
    (tr : List Ev) (h : swapOut swapmax fuel s ok = some (some pa, s1, tr)) :
    ∃ h0 sA p scantr idx s3 w,
      s.lru_head = some h0 ∧
      swapOutScan s h0 fuel = some (sA, p, scantr) ∧
      bitScan sA.bitmap (swapSlotCount swapmax) = some idx ∧
      exciseVictim { sA with bitmap := fun j => if j = idx then 1 else sA.bitmap j } p
        = some s3 ∧
      s3.ptes (s3.pages p).pagetable (s3.pages p).vaddr = some w ∧
      pa = p * PGSIZE ∧
      s1 = setPte s3 (s3.pages p).pagetable (s3.pages p).vaddr (pteRewrite w idx) ∧
      tr = Ev.acqLru :: scantr ++
        [Ev.acqSwap, Ev.relSwap, Ev.exciseEv p, Ev.relLru,
         Ev.diskWrite (p * PGSIZE) idx,
         Ev.pteWrite (s3.pages p).pagetable (s3.pages p).vaddr, Ev.flushEv] := by
  unfold swapOut at h
  cases hh : s.lru_head with
  | none =>
    simp only [hh] at h
    simp at h
  | some h0 =>
    simp only [hh] at h
    cases hscan : swapOutScan s h0 fuel with
    | none =>
      simp only [hscan] at h
      cases h
    | some res =>
      obtain ⟨sA, p, scantr⟩ := res
      simp only [hscan] at h
      cases hbit : bitScan sA.bitmap (swapSlotCount swapmax) with
      | none =>
        simp only [hbit] at h
        simp at h
      | some idx =>
        simp only [hbit] at h
        cases hexc : exciseVictim
            { sA with bitmap := fun j => if j = idx then 1 else sA.bitmap j } p with
        | none =>
          simp only [hexc] at h
          cases h
        | some s3 =>
          simp only [hexc] at h
          cases hw : s3.ptes (s3.pages p).pagetable (s3.pages p).vaddr with
          | none =>
            simp only [hw] at h
            cases h
          | some w =>
            simp only [hw] at h
            simp only [Option.some.injEq, Prod.mk.injEq] at h
            obtain ⟨hpa, hst, htr⟩ := h
            exact ⟨h0, sA, p, scantr, idx, s3, w, rfl, hscan, hbit, hexc, hw,
              hpa.symm, hst.symm, htr.symm⟩

/-- The excision only rewires LRU links: PTEs, bitmap, free list,
memory and the back references of every record are untouched. -/
theorem excise_facts (s s3 : Kst) (p : Nat) (h : exciseVictim s p = some s3) :
    s3.ptes = s.ptes ∧ s3.bitmap = s.bitmap ∧ s3.freelist = s.freelist ∧
      s3.mem = s.mem ∧
      ∀ r, (s3.pages r).pagetable = (s.pages r).pagetable ∧
        (s3.pages r).vaddr = (s.pages r).vaddr := by
  unfold exciseVictim at h
  by_cases hself : (s.pages p).next = some p
  · rw [if_pos hself] at h
    obtain rfl := Option.some.inj h
    refine ⟨rfl, rfl, rfl, rfl, ?_⟩
    intro r
    simp only [updPage, updF]
    by_cases hr : r = p <;> simp [hr]
  · rw [if_neg hself] at h
    cases hprev : (s.pages p).prev with
    | none =>
      simp only [hprev] at h
      cases h
    | some pv =>
      cases hnx : (s.pages p).next with
      | none =>
        simp only [hprev, hnx] at h
        cases h
      | some nx =>
        simp only [hprev, hnx] at h
        obtain rfl := Option.some.inj h
        refine ⟨rfl, rfl, rfl, rfl, ?_⟩
        intro r
        simp only [updPage, updF]
        constructor <;> split_ifs <;> rfl

/-- A successful swap_out run preserves the LRU structural invariant. -/
theorem swapOut_inv (swapmax fuel : Nat) (s s1 : Kst) (ok : Bool) (pa : Nat)
    (tr : List Ev) (hi : Inv s)
    (hs : swapOut swapmax fuel s ok = some (some pa, s1, tr)) : Inv s1 := by
  obtain ⟨h0, sA, p, scantr, idx, s3, w, hh, hscan, hbit, hexc, hw, hpa, hset, htr⟩ :=
    swapOut_success swapmax fuel s s1 ok pa tr hs
  obtain ⟨L, hIP, hhd⟩ := hi
  have hbasic := scan_basic fuel s sA h0 p scantr hscan
  have hmem0 : h0 ∈ L := by
    rw [hh] at hhd
    obtain ⟨T, rfl⟩ := List.head?_eq_some_iff.mp hhd.symm
    simp
  have hpmem : p ∈ L := scan_victim_mem fuel s sA h0 p scantr L hIP hmem0 hscan
  have hIP2 : InvP ({ sA with
      bitmap := fun j => if j = idx then 1 else sA.bitmap j } : Kst).pages L := by
    have hpg : ({ sA with
        bitmap := fun j => if j = idx then 1 else sA.bitmap j } : Kst).pages
        = s.pages := hbasic.1
    rw [hpg]
    exact hIP
  have hinv3 : Inv s3 := excise_inv _ s3 p L hIP2 hpmem hexc
  rw [hset]
  exact Inv_congr s3 _ rfl rfl hinv3

/-- The invariant implies pointwise double-link coherence. -/
theorem Inv_backOk (s : Kst) (hi : Inv s) : backOk s := by
  obtain ⟨L, hIP, -⟩ := hi
  constructor
  · intro r j hrj
    have hrL : r ∈ L := (hIP.2.1 r).mpr (by rw [hrj]; simp)
    obtain ⟨R, hrot⟩ := mem_to_front hrL
    have hIr := InvP_rotated s.pages hrot hIP
    cases R with
    | nil =>
      obtain ⟨hn, hp⟩ := InvP_self s.pages r hIr
      rw [hrj] at hn
      obtain rfl := Option.some.inj hn
      exact hp
    | cons c R1 =>
      have hc := InvP_next_head s.pages r c R1 hIr
      rw [hrj] at hc
      obtain rfl := Option.some.inj hc
      obtain ⟨-, -, -, -, hrp⟩ := hIr
      have h1 : links (fun i => (s.pages i).prev) ((j :: R1).reverse ++ [r]) := by
        have h2 := hrp.1
        rwa [List.reverse_cons] at h2
      have h3 := ((links_append_single _ _ _).mp h1).2
      apply h3
      rw [List.getLast?_reverse]
      rfl
  · intro r j hrj
    have hrL : r ∈ L := by
      by_contra hno
      have h2 := (hIP.2.2.1 r hno).2
      rw [h2] at hrj
      cases hrj
    obtain ⟨R, hrot⟩ := mem_to_front hrL
    have hIr := InvP_rotated s.pages hrot hIP
    cases R with
    | nil =>
      obtain ⟨hn, hp⟩ := InvP_self s.pages r hIr
      rw [hrj] at hp
      obtain rfl := Option.some.inj hp
      exact hn
    | cons c R1 =>
      obtain ⟨t, htL, hprev⟩ := InvP_head_prev s.pages (r :: c :: R1) r hIr rfl
      rw [hrj] at hprev
      obtain rfl := Option.some.inj hprev
      obtain ⟨-, -, -, hrn, -⟩ := hIr
      exact hrn.2 r j rfl htL

/-- Every reachable LRU state satisfies the structural invariant. -/
theorem reaches_inv (s : Kst) (h : Reaches s) : Inv s := by
  induction h with
  | init s0 hp hh =>
    exact ⟨[], InvP_empty _ hp, by rw [hh]; rfl⟩
  | add s s1 pa h hu hs ih =>
    exact lru_add_inv pa s s1 hu ih hs
  | rem s s1 pa h hs ih =>
    exact lru_remove_inv pa s s1 ih hs
  | swp s s1 swapmax fuel ok pa tr h hs ih =>
    exact swapOut_inv swapmax fuel s s1 ok pa tr ih hs

/-- Clearing the A bit keeps the V bit. -/
theorem clearA_keeps_V (w : Nat) :
    (w &&& compl64 PTE_A) &&& PTE_V = w &&& PTE_V := by
  rw [Nat.and_assoc, show compl64 PTE_A &&& PTE_V = PTE_V from by decide]

/-- Clearing the A bit leaves the A bit clear. -/
theorem clearA_clears_A (w : Nat) : (w &&& compl64 PTE_A) &&& PTE_A = 0 := by
  rw [Nat.and_assoc, show compl64 PTE_A &&& PTE_A = 0 from by decide]
  simp

/-- Writing an A-cleared value through one PTE location changes the
validity of no record. -/
theorem setPte_clearA_good (s : Kst) (pt va w : Nat)
    (hw : s.ptes pt va = some w) (r : Nat) :
    goodPte (setPte s pt va (w &&& compl64 PTE_A)) r ↔ goodPte s r := by
  unfold goodPte pteAt setPte
  by_cases hloc : (s.pages r).pagetable = pt ∧ (s.pages r).vaddr = va
  · simp only [hloc, and_self, if_pos, hloc.1, hloc.2, hw]
    constructor
    · rintro ⟨w1, hw1, hv1⟩
      obtain rfl := Option.some.inj hw1
      exact ⟨w, rfl, by rwa [clearA_keeps_V] at hv1⟩
    · rintro ⟨w1, hw1, hv1⟩
      obtain rfl := Option.some.inj hw1
      exact ⟨w &&& compl64 PTE_A, rfl, by rwa [clearA_keeps_V]⟩
  · simp only [if_neg hloc]

/-- Writing an A-cleared value through one PTE location keeps every
ready record ready. -/
theorem setPte_clearA_ready (s : Kst) (pt va w : Nat)
    (hw : s.ptes pt va = some w) (r : Nat)
    (hr : readyPte s r) : readyPte (setPte s pt va (w &&& compl64 PTE_A)) r := by
  obtain ⟨w1, hw1, hv1, hA1⟩ := hr
  unfold readyPte pteAt setPte
  unfold pteAt at hw1
  by_cases hloc : (s.pages r).pagetable = pt ∧ (s.pages r).vaddr = va
  · rw [hloc.1, hloc.2, hw] at hw1
    obtain rfl := Option.some.inj hw1
    refine ⟨w &&& compl64 PTE_A, by simp [hloc.1, hloc.2], ?_, clearA_clears_A w⟩
    rwa [clearA_keeps_V]
  · exact ⟨w1, by simp only [if_neg hloc]; exact hw1, hv1, hA1⟩

/-- After its A bit is cleared through its own back reference, a valid
record is ready. -/
theorem setPte_clearA_self_ready (s : Kst) (p w : Nat)
    (hw : s.ptes (s.pages p).pagetable (s.pages p).vaddr = some w)
    (hv : w &&& PTE_V ≠ 0) :
    readyPte (setPte s (s.pages p).pagetable (s.pages p).vaddr
      (w &&& compl64 PTE_A)) p := by
  refine ⟨w &&& compl64 PTE_A, ?_, ?_, clearA_clears_A w⟩
  · unfold pteAt setPte
    simp
  · rw [clearA_keeps_V]
    exact hv

/-- One skipped visit: if the scan succeeds from the successor with the
remaining fuel, it succeeds from here with one more unit. -/
theorem scan_skip_some (s : Kst) (p q : Nat) (m : Nat)
    (hnext : (s.pages p).next = some q)
    (hskip : s.ptes (s.pages p).pagetable (s.pages p).vaddr = none ∨
      ∃ w, s.ptes (s.pages p).pagetable (s.pages p).vaddr = some w ∧ w &&& PTE_V = 0)
    (h : ∃ r2, swapOutScan s q m = some r2) :
    ∃ r1, swapOutScan s p (m + 1) = some r1 := by
  obtain ⟨⟨s2, v2, t2⟩, hr⟩ := h
  rcases hskip with hn | ⟨w, hw, hv⟩
  · refine ⟨(s2, v2, Ev.walkEv (s.pages p).pagetable (s.pages p).vaddr :: t2), ?_⟩
    simp only [swapOutScan, hn, hnext, hr]
  · refine ⟨(s2, v2, Ev.walkEv (s.pages p).pagetable (s.pages p).vaddr :: t2), ?_⟩
    simp only [swapOutScan, hw, if_pos hv, hnext, hr]

/-- One second-chance visit: clearing A and advancing succeeds when the
scan from the successor over the cleared state succeeds. -/
theorem scan_clear_some (s : Kst) (p q : Nat) (m : Nat) (w : Nat)
    (hnext : (s.pages p).next = some q)
    (hw : s.ptes (s.pages p).pagetable (s.pages p).vaddr = some w)
    (hv : w &&& PTE_V ≠ 0) (hA : w &&& PTE_A ≠ 0)
    (h : ∃ r2, swapOutScan
      (setPte s (s.pages p).pagetable (s.pages p).vaddr (w &&& compl64 PTE_A))
      q m = some r2) :
    ∃ r1, swapOutScan s p (m + 1) = some r1 := by
  obtain ⟨⟨s2, v2, t2⟩, hr⟩ := h
  refine ⟨(s2, v2, Ev.walkEv (s.pages p).pagetable (s.pages p).vaddr :: t2), ?_⟩
  simp only [swapOutScan, hw, if_neg hv, if_pos hA, hnext, hr]

/-- A ready record is selected as the victim in one visit. -/
theorem scan_victim_some (s : Kst) (p : Nat) (m : Nat) (w : Nat)
    (hw : s.ptes (s.pages p).pagetable (s.pages p).vaddr = some w)
    (hv : w &&& PTE_V ≠ 0) (hA : w &&& PTE_A = 0) :
    swapOutScan s p (m + 1) =
      some (s, p, [Ev.walkEv (s.pages p).pagetable (s.pages p).vaddr]) := by
  have hA2 : ¬(w &&& PTE_A ≠ 0) := fun hc => hc hA
  simp only [swapOutScan, hw, if_neg hv, if_neg hA2]

/-- Rotating one ring element to the back. -/
theorem isRotated_cons_to_back (p : Nat) (R : List Nat) :
    (p :: R) ~r (R ++ [p]) := by
  refine ⟨1, ?_⟩
  rw [List.rotate_cons_succ, List.rotate_zero]

/-- Phase two of the clock termination argument: with every record in
front of the first valid-and-ready record invalid, the scan reaches it
and stops within one visit per skipped record plus one. -/
theorem scan_phase2 : ∀ (I : List Nat) (s : Kst) (p : Nat) (R : List Nat)
    (gv : Nat) (T : List Nat) (m : Nat),
    InvP s.pages (p :: R) → p :: R = I ++ gv :: T →
    (∀ r ∈ I, ¬ goodPte s r) → readyPte s gv →
    ∃ res, swapOutScan s p (I.length + 1 + m) = some res
  | [], s, p, R, gv, T, m, hIP, hdec, _, hready => by
    obtain ⟨rfl, rfl⟩ : p = gv ∧ R = T := List.cons.inj hdec
    obtain ⟨w, hw, hv, hA⟩ := hready
    have hw2 : s.ptes (s.pages p).pagetable (s.pages p).vaddr = some w := hw
    rw [show List.length ([] : List Nat) + 1 + m = m + 1 by
      simp only [List.length_nil]
      omega]
    exact ⟨_, scan_victim_some s p m w hw2 hv hA⟩
  | a :: I1, s, p, R, gv, T, m, hIP, hdec, hbad, hready => by
    obtain ⟨rfl, hR⟩ : p = a ∧ R = I1 ++ gv :: T := List.cons.inj hdec
    subst hR
    obtain ⟨c, R2, hcR⟩ : ∃ c R2, I1 ++ gv :: T = c :: R2 := by
      cases I1 with
      | nil => exact ⟨gv, T, rfl⟩
      | cons b B => exact ⟨b, B ++ gv :: T, rfl⟩
    rw [hcR] at hIP
    have hnext : (s.pages p).next = some c := InvP_next_head s.pages p c R2 hIP
    have hbadp : ¬ goodPte s p := hbad p (by simp)
    have hIProt : InvP s.pages (c :: (R2 ++ [p])) := by
      have hrot := isRotated_cons_to_back p (c :: R2)
      have h2 := InvP_rotated s.pages hrot hIP
      simpa using h2
    have hdec2 : c :: (R2 ++ [p]) = I1 ++ gv :: (T ++ [p]) := by
      have h3 : (I1 ++ gv :: T) ++ [p] = c :: (R2 ++ [p]) := by
        rw [hcR]
        simp
      rw [← h3]
      simp
    have hgvp : gv ≠ p := by
      intro hx
      subst hx
      obtain ⟨w, hw, hv, -⟩ := hready
      exact hbadp ⟨w, hw, hv⟩
    obtain ⟨res, hres⟩ := scan_phase2 I1 s c (R2 ++ [p]) gv (T ++ [p]) m hIProt hdec2
      (fun r hr => hbad r (by simp [hr]))
      hready
    have hskip : s.ptes (s.pages p).pagetable (s.pages p).vaddr = none ∨
        ∃ w, s.ptes (s.pages p).pagetable (s.pages p).vaddr = some w ∧
          w &&& PTE_V = 0 := by
      cases hpte : s.ptes (s.pages p).pagetable (s.pages p).vaddr with
      | none => exact Or.inl rfl
      | some w =>
        right
        refine ⟨w, rfl, ?_⟩
        by_contra hc
        exact hbadp ⟨w, hpte, hc⟩
    have hstep := scan_skip_some s p c (I1.length + 1 + m) hnext hskip ⟨res, hres⟩
    have hfe : (p :: I1).length + 1 + m = (I1.length + 1 + m) + 1 := by
      simp only [List.length_cons]
      omega
    rw [hfe]
    exact hstep

/-- Phase one of the clock termination argument: scanning the segment V
of the ring (with W the part already behind the hand), the scan either
stops inside V, or after exactly one visit per element of V the hand is
back at the front of W ++ V with every valid record of V now ready and
no readiness lost, and success from there lifts back. -/
theorem scan_phase1 : ∀ (V W : List Nat) (s : Kst) (p : Nat) (m : Nat),
    InvP s.pages (V ++ W) → V.head? = some p →
    (∀ r ∈ W, goodPte s r → readyPte s r) →
    (∃ res, swapOutScan s p (V.length + m) = some res) ∨
    (∃ s2 q, s2.pages = s.pages ∧
      (W ++ V).head? = some q ∧
      (∀ r, goodPte s2 r ↔ goodPte s r) ∧
      (∀ r, r ∈ V ++ W → goodPte s2 r → readyPte s2 r) ∧
      ((∃ r2, swapOutScan s2 q m = some r2) →
        ∃ r1, swapOutScan s p (V.length + m) = some r1))
  | [], _, _, _, _, _, hhd, _ => by cases hhd
  | p0 :: V1, W, s, p, m, hIP, hhd, hW => by
    obtain rfl : p = p0 := by simpa using hhd.symm
    have hIP2 : InvP s.pages (p :: (V1 ++ W)) := by
      rw [← List.cons_append]
      exact hIP
    obtain ⟨q0, hnext, hq0⟩ : ∃ q0, (s.pages p).next = some q0 ∧
        ((V1 ++ W) ++ [p]).head? = some q0 := by
      cases hVW : V1 ++ W with
      | nil =>
        rw [hVW] at hIP2
        exact ⟨p, (InvP_self s.pages p hIP2).1, rfl⟩
      | cons c D =>
        rw [hVW] at hIP2
        exact ⟨c, InvP_next_head s.pages p c D hIP2, rfl⟩
    have hfe : (p :: V1).length + m = (V1.length + m) + 1 := by
      simp only [List.length_cons]
      omega
    have hrotB : InvP s.pages (V1 ++ (W ++ [p])) := by
      have h1 := InvP_rotated s.pages (isRotated_cons_to_back p (V1 ++ W)) hIP2
      rwa [List.append_assoc] at h1
    cases hpte : s.ptes (s.pages p).pagetable (s.pages p).vaddr with
    | none =>
      have hbadp : ¬ goodPte s p := by
        rintro ⟨w, hw, -⟩
        have hw2 : s.ptes (s.pages p).pagetable (s.pages p).vaddr = some w := hw
        rw [hpte] at hw2
        cases hw2
      cases V1 with
      | nil =>
        right
        refine ⟨s, q0, rfl, by simpa using hq0, fun r => Iff.rfl, ?_, ?_⟩
        · intro r hr hg
          rcases List.mem_append.mp hr with hr1 | hr2
          · obtain rfl : r = p := by simpa using hr1
            exact absurd hg hbadp
          · exact hW r hr2 hg
        · intro hsome
          rw [show (p :: ([] : List Nat)).length + m = m + 1 by
            simp only [List.length_cons, List.length_nil]
            omega]
          exact scan_skip_some s p q0 m hnext (Or.inl hpte) hsome
      | cons v1 V2 =>
        obtain rfl : v1 = q0 := Option.some.inj hq0
        rcases scan_phase1 (v1 :: V2) (W ++ [p]) s v1 m hrotB rfl
            (fun r hr hg => by
              rcases List.mem_append.mp hr with h1 | h2
              · exact hW r h1 hg
              · obtain rfl : r = p := by simpa using h2
                exact absurd hg hbadp) with
          ⟨res, hres⟩ | ⟨s2, q, hpg, hq, hiff, hready2, htrans⟩
        · left
          rw [hfe]
          exact scan_skip_some s p v1 ((v1 :: V2).length + m) hnext
            (Or.inl hpte) ⟨res, hres⟩
        · right
          refine ⟨s2, q, hpg, ?_, hiff, ?_, ?_⟩
          · rw [List.append_assoc] at hq
            simpa using hq
          · intro r hr hg
            refine hready2 r ?_ hg
            simp only [List.mem_append, List.mem_cons] at hr ⊢
            tauto
          · intro hsome
            rw [hfe]
            exact scan_skip_some s p v1 ((v1 :: V2).length + m) hnext
              (Or.inl hpte) (htrans hsome)
    | some w =>
      by_cases hv : w &&& PTE_V = 0
      · have hbadp : ¬ goodPte s p := by
          rintro ⟨w1, hw1, hv1⟩
          have hw2 : s.ptes (s.pages p).pagetable (s.pages p).vaddr = some w1 := hw1
          rw [hpte] at hw2
          obtain rfl := Option.some.inj hw2
          exact hv1 hv
        cases V1 with
        | nil =>
          right
          refine ⟨s, q0, rfl, by simpa using hq0, fun r => Iff.rfl, ?_, ?_⟩
          · intro r hr hg
            rcases List.mem_append.mp hr with hr1 | hr2
            · obtain rfl : r = p := by simpa using hr1
              exact absurd hg hbadp
            · exact hW r hr2 hg
          · intro hsome
            rw [show (p :: ([] : List Nat)).length + m = m + 1 by
              simp only [List.length_cons, List.length_nil]
              omega]
            exact scan_skip_some s p q0 m hnext (Or.inr ⟨w, hpte, hv⟩) hsome
        | cons v1 V2 =>
          obtain rfl : v1 = q0 := Option.some.inj hq0
          rcases scan_phase1 (v1 :: V2) (W ++ [p]) s v1 m hrotB rfl
              (fun r hr hg => by
                rcases List.mem_append.mp hr with h1 | h2
                · exact hW r h1 hg
                · obtain rfl : r = p := by simpa using h2
                  exact absurd hg hbadp) with
            ⟨res, hres⟩ | ⟨s2, q, hpg, hq, hiff, hready2, htrans⟩
          · left
            rw [hfe]
            exact scan_skip_some s p v1 ((v1 :: V2).length + m) hnext
              (Or.inr ⟨w, hpte, hv⟩) ⟨res, hres⟩
          · right
            refine ⟨s2, q, hpg, ?_, hiff, ?_, ?_⟩
            · rw [List.append_assoc] at hq
              simpa using hq
            · intro r hr hg
              refine hready2 r ?_ hg
              simp only [List.mem_append, List.mem_cons] at hr ⊢
              tauto
            · intro hsome
              rw [hfe]
              exact scan_skip_some s p v1 ((v1 :: V2).length + m) hnext
                (Or.inr ⟨w, hpte, hv⟩) (htrans hsome)
      · by_cases hA : w &&& PTE_A = 0
        · left
          rw [hfe]
          exact ⟨_, scan_victim_some s p (V1.length + m) w hpte hv hA⟩
        · have hiffC := setPte_clearA_good s (s.pages p).pagetable (s.pages p).vaddr
            w hpte
          have hreadyP := setPte_clearA_self_ready s p w hpte hv
          have hreadyW : ∀ r ∈ W,
              goodPte (setPte s (s.pages p).pagetable (s.pages p).vaddr
                (w &&& compl64 PTE_A)) r →
              readyPte (setPte s (s.pages p).pagetable (s.pages p).vaddr
                (w &&& compl64 PTE_A)) r := by
            intro r hr hg
            exact setPte_clearA_ready s _ _ w hpte r (hW r hr ((hiffC r).mp hg))
          cases V1 with
          | nil =>
            right
            refine ⟨setPte s (s.pages p).pagetable (s.pages p).vaddr
              (w &&& compl64 PTE_A), q0, rfl, by simpa using hq0, hiffC, ?_, ?_⟩
            · intro r hr hg
              rcases List.mem_append.mp hr with hr1 | hr2
              · obtain rfl : r = p := by simpa using hr1
                exact hreadyP
              · exact hreadyW r hr2 hg
            · intro hsome
              rw [show (p :: ([] : List Nat)).length + m = m + 1 by
                simp only [List.length_cons, List.length_nil]
                omega]
              exact scan_clear_some s p q0 m w hnext hpte hv hA hsome
          | cons v1 V2 =>
            obtain rfl : v1 = q0 := Option.some.inj hq0
            rcases scan_phase1 (v1 :: V2) (W ++ [p])
                (setPte s (s.pages p).pagetable (s.pages p).vaddr
                  (w &&& compl64 PTE_A)) v1 m hrotB rfl
                (fun r hr hg => by
                  rcases List.mem_append.mp hr with h1 | h2
                  · exact hreadyW r h1 hg
                  · obtain rfl : r = p := by simpa using h2
                    exact hreadyP) with
              ⟨res, hres⟩ | ⟨s2, q, hpg, hq, hiff, hready2, htrans⟩
            · left
              rw [hfe]
              exact scan_clear_some s p v1 ((v1 :: V2).length + m) w hnext hpte
                hv hA ⟨res, hres⟩
            · right
              refine ⟨s2, q, hpg, ?_, fun r => (hiff r).trans (hiffC r), ?_, ?_⟩
              · rw [List.append_assoc] at hq
                simpa using hq
              · intro r hr hg
                refine hready2 r ?_ hg
                simp only [List.mem_append, List.mem_cons] at hr ⊢
                tauto
              · intro hsome
                rw [hfe]
                exact scan_clear_some s p v1 ((v1 :: V2).length + m) w hnext hpte
                  hv hA (htrans hsome)

/-- Any list with a valid record splits at its first valid record. -/
theorem first_good_decomp (s : Kst) : ∀ (L : List Nat), (∃ r ∈ L, goodPte s r) →
    ∃ I gv T, L = I ++ gv :: T ∧ (∀ r ∈ I, ¬ goodPte s r) ∧ goodPte s gv
  | [], h => by
    obtain ⟨r, hr, -⟩ := h
    cases hr
  | a :: L1, h => by
    by_cases hg : goodPte s a
    · exact ⟨[], a, L1, rfl, by simp, hg⟩
    · have h2 : ∃ r ∈ L1, goodPte s r := by
        obtain ⟨r, hr, hgr⟩ := h
        rcases List.mem_cons.mp hr with rfl | hr2
        · exact absurd hgr hg
        · exact ⟨r, hr2, hgr⟩
      obtain ⟨I, gv, T, hdec, hbad, hgood⟩ := first_good_decomp s L1 h2
      refine ⟨a :: I, gv, T, by rw [hdec]; rfl, ?_, hgood⟩
      intro r hr
      rcases List.mem_cons.mp hr with rfl | hr2
      · exact hg
      · exact hbad r hr2

/-- A slot returned by the first-fit scan lies below the scan bound. -/
theorem bitScan_lt (bm : Nat → Nat) (bound idx : Nat)
    (h : bitScan bm bound = some idx) : idx < bound := by
  unfold bitScan at h
  exact List.mem_range.mp (List.mem_of_find?_eq_some h)

/-- A slot returned by the first-fit scan was free. -/
theorem bitScan_free (bm : Nat → Nat) (bound idx : Nat)
    (h : bitScan bm bound = some idx) : bm idx = 0 := by
  unfold bitScan at h
  have h2 := List.find?_some h
  simpa using h2

/-- Bit j of a 64-bit complement. -/
theorem compl64_testBit (m j : Nat) :
    (compl64 m).testBit j = ((decide (j < 64)).xor (m.testBit j)) := by
  unfold compl64
  rw [Nat.testBit_xor, Nat.testBit_two_pow_sub_one]

/-- The bit-level content of the PTE rewrite: V (bit 0) clear, S (bit 9)
set, the permission bits 1 to 8 preserved from the old value, and the
PPN field (the bits from 10 up) holding exactly the slot index. -/
theorem pteRewrite_bits (w idx : Nat) (hidx : idx < 2 ^ 54) :
    (pteRewrite w idx).testBit 0 = false ∧
    (pteRewrite w idx).testBit 9 = true ∧
    (∀ i, 1 ≤ i → i ≤ 8 → (pteRewrite w idx).testBit i = w.testBit i) ∧
    pteRewrite w idx / 2 ^ 10 = idx := by
  have hmod : idx * 1024 % 2 ^ 64 = idx * 1024 := by
    have h2 : idx ≤ 2 ^ 54 - 1 := by omega
    have h3 : idx * 1024 ≤ (2 ^ 54 - 1) * 1024 := Nat.mul_le_mul_right 1024 h2
    have h4 : (2 ^ 54 - 1) * 1024 < 2 ^ 64 := by norm_num
    exact Nat.mod_eq_of_lt (by omega)
  have ha : w &&& 1023 < 2 ^ 10 :=
    lt_of_le_of_lt Nat.and_le_right (by norm_num)
  have hc : (w &&& 1023) ||| idx * 1024 % 2 ^ 64 = 2 ^ 10 * idx + (w &&& 1023) := by
    rw [hmod, Nat.lor_comm, show idx * 1024 = 2 ^ 10 * idx by ring]
    exact (Nat.mul_add_lt_is_or ha idx).symm
  have hform : pteRewrite w idx =
      ((2 ^ 10 * idx + (w &&& 1023)) &&& compl64 1) ||| 512 := by
    unfold pteRewrite PTE_V PTE_S
    rw [hc]
  have h512 : ∀ j, (512 : Nat).testBit j = decide (9 = j) := by
    intro j
    rw [show (512 : Nat) = 2 ^ 9 by norm_num, Nat.testBit_two_pow]
  have h1b : ∀ j, (1 : Nat).testBit j = decide (0 = j) := by
    intro j
    rw [show (1 : Nat) = 2 ^ 0 by norm_num, Nat.testBit_two_pow]
  have hbit : ∀ j, (pteRewrite w idx).testBit j =
      (((2 ^ 10 * idx + (w &&& 1023)).testBit j &&
        ((decide (j < 64)).xor (decide (0 = j)))) || (decide (9 = j))) := by
    intro j
    rw [hform, Nat.testBit_lor, Nat.testBit_land, compl64_testBit, h512, h1b]
  refine ⟨?_, ?_, ?_, ?_⟩
  · rw [hbit 0]
    simp
  · rw [hbit 9]
    simp
  · intro i h1i h8i
    rw [hbit i]
    have h9 : ¬((9 : Nat) = i) := by omega
    have h0 : ¬((0 : Nat) = i) := by omega
    have h64 : i < 64 := by omega
    simp only [h9, h0, h64, decide_True, decide_False, Bool.xor_false,
      Bool.and_true, Bool.or_false]
    rw [Nat.testBit_mul_pow_two_add idx ha i, if_pos (by omega : i < 10),
      Nat.testBit_land, show (1023 : Nat) = 2 ^ 10 - 1 by norm_num,
      Nat.testBit_two_pow_sub_one]
    simp [show i < 10 by omega]
  · rw [← Nat.shiftRight_eq_div_pow]
    apply Nat.eq_of_testBit_eq
    intro i
    rw [Nat.testBit_shiftRight, hbit (10 + i)]
    have h9 : ¬((9 : Nat) = 10 + i) := by omega
    have h0 : ¬((0 : Nat) = 10 + i) := by omega
    by_cases h64 : 10 + i < 64
    · simp only [h9, h0, h64, decide_True, decide_False, Bool.xor_false,
        Bool.and_true, Bool.or_false]
      rw [Nat.testBit_mul_pow_two_add idx ha (10 + i),
        if_neg (by omega : ¬(10 + i < 10)), show 10 + i - 10 = i by omega]
    · have hfi : idx.testBit i = false :=
        Nat.testBit_lt_two_pow (lt_of_lt_of_le hidx
          (Nat.pow_le_pow_right (by norm_num) (by omega)))
      simp only [h9, h0, h64, decide_True, decide_False, Bool.xor_false,
        Bool.and_false, Bool.or_false, hfi]

/-- Walk events do not change the set of held locks. -/
theorem foldl_lockStep_walks : ∀ (ws : List Ev) (st : List LockId),
    (∀ e ∈ ws, ∃ a b, e = Ev.walkEv a b) → ws.foldl lockStep st = st
  | [], _, _ => rfl
  | e :: ws1, st, hw => by
    obtain ⟨a, b, rfl⟩ := hw e (by simp)
    rw [List.foldl_cons]
    exact foldl_lockStep_walks ws1 st (fun e2 he2 => hw e2 (by simp [he2]))

/-- After the lock prefix of a successful swap_out run (acquire LRU,
walks, acquire and release the bitmap lock, excise, release LRU), no
lock is held. -/
theorem heldAfter_protocol (ws : List Ev) (p : Nat)
    (hw : ∀ e ∈ ws, ∃ a b, e = Ev.walkEv a b) :
    heldAfter (Ev.acqLru :: ws ++
      [Ev.acqSwap, Ev.relSwap, Ev.exciseEv p, Ev.relLru]) = [] := by
  unfold heldAfter
  simp only [List.foldl_cons, List.foldl_append]
  rw [foldl_lockStep_walks ws _ hw]
  rfl

/-- C1 (amended): the clock scan of swap_out terminates within two full
revolutions of the LRU ring whenever some linked record resolves to a
valid PTE: the first revolution clears every A bit among the valid
candidates and the second stops at the first valid one.  (The source
implements no revolution bound and no fatal violation; with no valid
candidate at all the loop never exits, see the counterexample.) -/
theorem clockScanTermination (s : Kst) (L : List Nat) (h0 : Nat)
    (hIP : InvP s.pages L) (hhead : L.head? = some h0)
    (hgood : ∃ r ∈ L, goodPte s r) :
    ∃ res, swapOutScan s h0 (2 * L.length) = some res := by
  have hIP0 : InvP s.pages (L ++ []) := by simpa using hIP
  rcases scan_phase1 L [] s h0 L.length hIP0 hhead (by simp) with
    ⟨res, hres⟩ | ⟨s2, q, hpg, hq, hiff, hready, htrans⟩
  · rw [two_mul]
    exact ⟨res, hres⟩
  · obtain rfl : h0 = q := by
      rw [List.nil_append, hhead] at hq
      exact Option.some.inj hq
    have hgood2 : ∃ r ∈ L, goodPte s2 r := by
      obtain ⟨r, hr, hgr⟩ := hgood
      exact ⟨r, hr, (hiff r).mpr hgr⟩
    obtain ⟨I, gv, T, hdec, hbad, hgoodgv⟩ := first_good_decomp s2 L hgood2
    obtain ⟨TL, hLT⟩ := List.head?_eq_some_iff.mp hhead
    have hIP3 : InvP s2.pages (h0 :: TL) := by
      rw [hpg, ← hLT]
      exact hIP
    have hreadygv : readyPte s2 gv := by
      refine hready gv ?_ hgoodgv
      simp only [List.append_nil]
      rw [hdec]
      simp
    have hlen : I.length + 1 + T.length = L.length := by
      rw [hdec]
      simp only [List.length_append, List.length_cons]
      omega
    obtain ⟨res2, hres2⟩ := scan_phase2 I s2 h0 TL gv T T.length hIP3
      (by rw [← hLT, hdec]) hbad hreadygv
    rw [hlen] at hres2
    rw [two_mul]
    exact htrans ⟨res2, hres2⟩

/-- C1 witness: on a one-record ring whose record is valid with A
clear, the scan succeeds within two revolutions. -/
theorem clockScanTermination_witness :
    ∃ res, swapOutScan oneSt 7 (2 * [7].length) = some res :=
  clockScanTermination oneSt [7] 7
    (InvP_singleton oneSt.pages 7 rfl rfl
      (fun r hr => by constructor <;> simp [oneSt, hr]))
    rfl ⟨7, by simp, 1, rfl, by decide⟩

/-- C1 counterexample: a reachable one-record LRU ring whose record has
a stale back reference (walk resolves no PTE).  Two revolutions are two
visits, yet after fifty visits the scan is still looping and swap_out
has not returned: the source bounds nothing and raises no fatal
invariant violation. -/
theorem clockScanUnbounded_cex :
    swapOutScan badC1 3 50 = none ∧ swapOut 4096 50 badC1 true = none :=
  ⟨rfl, rfl⟩

set_option maxRecDepth 100000 in
/-- C2: the source manages SWAPMAX / 4 swap slots (an int per slot, not
a packed bit array), not the SWAPMAX / PGSIZE slots that one slot per
4 KiB page gives: at SWAPMAX = 4096 the bitmap has 1024 entries where
one page fits, and the first-fit scan of swap_out walks all of them. -/
theorem swapBitmapSlots_bug :
    swapSlotCount 4096 = 1024 ∧ 4096 / PGSIZE = 1 ∧
    swapSlotCount 4096 ≠ 4096 / PGSIZE ∧
    bitScan (fun i => if i < 1023 then 1 else 0) (swapSlotCount 4096) =
      some 1023 := by
  refine ⟨rfl, rfl, by decide, ?_⟩
  rfl

/-- C3 (amended): a successful swap_out returns the victim frame
directly to its caller and never touches the free list; kalloc on an
empty free list hands that frame straight through, again leaving the
free list alone. -/
theorem swapOutNoFreelist (swapmax fuel : Nat) (s : Kst) (ok : Bool) :
    (∀ pa s1 tr, swapOut swapmax fuel s ok = some (some pa, s1, tr) →
      s1.freelist = s.freelist) ∧
    (s.freelist = [] →
      ∀ pa s1 tr, swapOut swapmax fuel s ok = some (some pa, s1, tr) →
      ∃ s2 tr2, kalloc swapmax fuel s ok = some (some pa, s2, tr2) ∧
        s2.freelist = s.freelist) := by
  have hfree : ∀ pa s1 tr, swapOut swapmax fuel s ok = some (some pa, s1, tr) →
      s1.freelist = s.freelist := by
    intro pa s1 tr h
    obtain ⟨h0, sA, p, scantr, idx, s3, w, hh, hscan, hbit, hexc, hw, hpa, hset, htr⟩ :=
      swapOut_success swapmax fuel s s1 ok pa tr h
    have h1 := (scan_basic fuel s sA h0 p scantr hscan).2.2.2.1
    have h2 := (excise_facts _ s3 p hexc).2.2.1
    rw [hset]
    show s3.freelist = s.freelist
    exact h2.trans h1
  refine ⟨hfree, ?_⟩
  intro hempty pa s1 tr h
  refine ⟨{ s1 with mem := fun a => if pa ≤ a ∧ a < pa + PGSIZE then 5 else s1.mem a },
    (Ev.acqKmem :: Ev.relKmem :: tr) ++ [Ev.memsetEv pa 5], ?_, hfree pa s1 tr h⟩
  simp only [kalloc, hempty, h]

/-- C3 witness: on a state with an empty free list and one evictable
page, kalloc returns the reclaimed frame with the free list untouched. -/
theorem swapOutNoFreelist_witness :
    ∃ s2 tr2, kalloc 16 3 oneSt true = some (some 28672, s2, tr2) ∧
      s2.freelist = oneSt.freelist :=
  (swapOutNoFreelist 16 3 oneSt true).2 rfl 28672 oneStPost oneStTr rfl

/-- C3 counterexample: swap_out on oneSt returns frame 28672 while the
free list after the call is still empty: the victim frame was never
pushed onto the free list, and kalloc receives it directly rather than
detaching it from the free-list head. -/
theorem swapOutFreelist_cex :
    (swapOut 16 3 oneSt true).map (fun r => (r.1, r.2.1.freelist)) =
      some (some 28672, ([] : List Nat)) ∧
    (28672 : Nat) ∉ ([] : List Nat) :=
  ⟨rfl, by simp⟩

/-- C4: the source ignores the outcome of the disk write entirely: with
the write failed, swap_out still keeps the swap slot reserved, rewrites
the PTE of the victim (value 1 becomes 512), leaves the victim out of
the LRU list, and returns the frame instead of null. -/
theorem swapOutDiskFailureIgnored_bug :
    swapOut 16 3 oneSt false = swapOut 16 3 oneSt true ∧
    ∃ s1 tr, swapOut 16 3 oneSt false = some (some 28672, s1, tr) ∧
      s1.bitmap 0 = 1 ∧ s1.ptes 3 4 = some 512 ∧ (512 : Nat) ≠ 1 ∧
      (s1.pages 7).next = none ∧ s1.lru_head = none :=
  ⟨rfl, oneStPost, oneStTr, rfl, rfl, rfl, by decide, rfl, rfl⟩

/-- C5 (amended): the victim returned by the clock scan resolves, in
the post-scan state, to a PTE that is valid with its A bit clear; the
scan skips candidates only for an absent or invalid PTE and never
consults the user bit (see the counterexample). -/
theorem clockVictimValidAClear (fuel : Nat) (s s1 : Kst) (p v : Nat)
    (tr : List Ev) (h : swapOutScan s p fuel = some (s1, v, tr)) :
    ∃ w, pteAt s1 v = some w ∧ w &&& PTE_V ≠ 0 ∧ w &&& PTE_A = 0 :=
  (scan_basic fuel s s1 p v tr h).2.2.2.2.2.1

/-- C5 witness: the scan on oneSt selects record 7, whose PTE value 1
is valid with A clear. -/
theorem clockVictimValidAClear_witness :
    ∃ w, pteAt oneSt 7 = some w ∧ w &&& PTE_V ≠ 0 ∧ w &&& PTE_A = 0 :=
  clockVictimValidAClear 3 oneSt oneSt 7 7 [Ev.walkEv 3 4] rfl

/-- C5 counterexample: record 7 of oneSt resolves to the PTE value 1:
valid, but with the user bit clear.  The scan still selects it as the
victim instead of skipping it, so candidates are not skipped for
lacking user ownership. -/
theorem clockVictimUserBit_cex :
    pteAt oneSt 7 = some 1 ∧ (1 : Nat) &&& PTE_U = 0 ∧
    swapOutScan oneSt 7 3 = some (oneSt, 7, [Ev.walkEv 3 4]) :=
  ⟨rfl, by decide, rfl⟩

/-- C6: after a successful swap_out the PTE of the victim holds the
rewrite of its old value: every quantified component is pinned by the
run (the head by lru_head, the victim p and the post-scan state by the
clock scan, the slot idx by the first-fit bitmap scan with idx also
reserved in the final bitmap and carried by the disk-write event, the
pre-rewrite value w by the PTE lookup at the victim's back reference in
the excised state, and the final state is exactly that state with the
rewrite installed); the installed value has V (bit 0) clear, S (bit 9)
set, the PPN field (bits 10 and up) holding exactly the reserved slot
index, the permission bits 1 to 8 of w preserved, and a TLB flush
issued after the PTE write. -/
theorem swapOutPteRewriteOk (swapmax fuel : Nat) (s s1 : Kst) (ok : Bool)
    (pa : Nat) (tr : List Ev) (hbound : swapmax ≤ 2 ^ 56)
    (h : swapOut swapmax fuel s ok = some (some pa, s1, tr)) :
    ∃ h0 sA p scantr idx s3 w,
      s.lru_head = some h0 ∧
      swapOutScan s h0 fuel = some (sA, p, scantr) ∧
      bitScan sA.bitmap (swapSlotCount swapmax) = some idx ∧
      exciseVictim { sA with bitmap := fun j => if j = idx then 1 else sA.bitmap j } p
        = some s3 ∧
      pa = p * PGSIZE ∧
      s3.ptes (s3.pages p).pagetable (s3.pages p).vaddr = some w ∧
      s1 = setPte s3 (s3.pages p).pagetable (s3.pages p).vaddr (pteRewrite w idx) ∧
      s1.ptes (s3.pages p).pagetable (s3.pages p).vaddr = some (pteRewrite w idx) ∧
      s1.bitmap idx = 1 ∧
      (pteRewrite w idx).testBit 0 = false ∧
      (pteRewrite w idx).testBit 9 = true ∧
      (∀ i, 1 ≤ i → i ≤ 8 → (pteRewrite w idx).testBit i = w.testBit i) ∧
      pteRewrite w idx / 2 ^ 10 = idx ∧
      Ev.diskWrite pa idx ∈ tr ∧
      ∃ t1 t2 t3, tr = t1 ++
        Ev.pteWrite (s3.pages p).pagetable (s3.pages p).vaddr :: t2 ++
        Ev.flushEv :: t3 := by
  obtain ⟨h0, sA, p, scantr, idx, s3, w, hh, hscan, hbit, hexc, hw, hpa, hset, htr⟩ :=
    swapOut_success swapmax fuel s s1 ok pa tr h
  have hidx : idx < 2 ^ 54 := by
    have h1 := bitScan_lt _ _ _ hbit
    have h3 : swapmax / 4 ≤ 2 ^ 56 / 4 := Nat.div_le_div_right hbound
    have h4 : (2 : Nat) ^ 56 / 4 = 2 ^ 54 := by norm_num
    unfold swapSlotCount at h1
    omega
  obtain ⟨hb0, hb9, hbmid, hbppn⟩ := pteRewrite_bits w idx hidx
  have hbm : s3.bitmap idx = 1 := by
    have hpres := (excise_facts _ s3 p hexc).2.1
    rw [hpres]
    simp
  refine ⟨h0, sA, p, scantr, idx, s3, w, hh, hscan, hbit, hexc, hpa, hw, hset,
    ?_, ?_, hb0, hb9, hbmid, hbppn, ?_, ?_⟩
  · rw [hset]
    unfold setPte
    simp
  · rw [hset]
    exact hbm
  · rw [htr, hpa]
    simp
  · rw [htr]
    exact ⟨Ev.acqLru :: scantr ++
      [Ev.acqSwap, Ev.relSwap, Ev.exciseEv p, Ev.relLru,
       Ev.diskWrite (p * PGSIZE) idx], [], [], by simp⟩

/-- C6 witness: the successful run on oneSt. -/
theorem swapOutPteRewriteOk_witness :
    ∃ h0 sA p scantr idx s3 w,
      oneSt.lru_head = some h0 ∧
      swapOutScan oneSt h0 3 = some (sA, p, scantr) ∧
      bitScan sA.bitmap (swapSlotCount 16) = some idx ∧
      exciseVictim { sA with bitmap := fun j => if j = idx then 1 else sA.bitmap j } p
        = some s3 ∧
      (28672 : Nat) = p * PGSIZE ∧
      s3.ptes (s3.pages p).pagetable (s3.pages p).vaddr = some w ∧
      oneStPost = setPte s3 (s3.pages p).pagetable (s3.pages p).vaddr
        (pteRewrite w idx) ∧
      oneStPost.ptes (s3.pages p).pagetable (s3.pages p).vaddr
        = some (pteRewrite w idx) ∧
      oneStPost.bitmap idx = 1 ∧
      (pteRewrite w idx).testBit 0 = false ∧
      (pteRewrite w idx).testBit 9 = true ∧
      (∀ i, 1 ≤ i → i ≤ 8 → (pteRewrite w idx).testBit i = w.testBit i) ∧
      pteRewrite w idx / 2 ^ 10 = idx ∧
      Ev.diskWrite 28672 idx ∈ oneStTr ∧
      ∃ t1 t2 t3, oneStTr = t1 ++
        Ev.pteWrite (s3.pages p).pagetable (s3.pages p).vaddr :: t2 ++
        Ev.flushEv :: t3 :=
  swapOutPteRewriteOk 16 3 oneSt oneStPost true 28672 oneStTr (by decide) rfl

/-- C7: every execution of swap_out that reaches the disk write holds
no spinlock at that point: the trace is exactly the LRU acquire, the
walk events of the scan (the last one locating the PTE of the victim),
the bitmap lock acquire and release, the victim excision, the LRU
release, and only then the disk write, followed by the PTE write and
the flush; folding the lock events of the prefix before the disk write
leaves nothing held. -/
theorem swapOutLockDiscipline (swapmax fuel : Nat) (s s1 : Kst) (ok : Bool)
    (pa : Nat) (tr : List Ev)
    (h : swapOut swapmax fuel s ok = some (some pa, s1, tr)) :
    ∃ ws p idx pt va,
      tr = Ev.acqLru :: ws ++
        [Ev.acqSwap, Ev.relSwap, Ev.exciseEv p, Ev.relLru,
         Ev.diskWrite pa idx, Ev.pteWrite pt va, Ev.flushEv] ∧
      (∀ e ∈ ws, ∃ a b, e = Ev.walkEv a b) ∧
      ws.getLast? = some (Ev.walkEv pt va) ∧
      heldAfter (Ev.acqLru :: ws ++
        [Ev.acqSwap, Ev.relSwap, Ev.exciseEv p, Ev.relLru]) = [] := by
  obtain ⟨h0, sA, p, scantr, idx, s3, w, hh, hscan, hbit, hexc, hw, hpa, hset, htr⟩ :=
    swapOut_success swapmax fuel s s1 ok pa tr h
  have hbasic := scan_basic fuel s sA h0 p scantr hscan
  have hwalks := hbasic.2.2.2.2.2.2.1
  have hlast := hbasic.2.2.2.2.2.2.2
  have hkeep := (excise_facts _ s3 p hexc).2.2.2.2 p
  refine ⟨scantr, p, idx, (s3.pages p).pagetable, (s3.pages p).vaddr, ?_, hwalks,
    ?_, heldAfter_protocol scantr p hwalks⟩
  · rw [htr, hpa]
  · rw [hkeep.1, hkeep.2]
    exact hlast

/-- C7 witness: the successful run on oneSt. -/
theorem swapOutLockDiscipline_witness :
    ∃ ws p idx pt va,
      oneStTr = Ev.acqLru :: ws ++
        [Ev.acqSwap, Ev.relSwap, Ev.exciseEv p, Ev.relLru,
         Ev.diskWrite 28672 idx, Ev.pteWrite pt va, Ev.flushEv] ∧
      (∀ e ∈ ws, ∃ a b, e = Ev.walkEv a b) ∧
      ws.getLast? = some (Ev.walkEv pt va) ∧
      heldAfter (Ev.acqLru :: ws ++
        [Ev.acqSwap, Ev.relSwap, Ev.exciseEv p, Ev.relLru]) = [] :=
  swapOutLockDiscipline 16 3 oneSt oneStPost true 28672 oneStTr rfl

/-- C8: lru_remove on a record whose next link is the unlinked sentinel
returns at once, leaving the whole state (list, head and all records)
unchanged. -/
theorem lruRemoveUnlinkedIdem (pa : Nat) (s : Kst)
    (h : (s.pages (pa / PGSIZE)).next = none) : lru_remove pa s = some s := by
  simp only [lru_remove, h]

/-- C8 witness: removing an unlinked record from the empty state. -/
theorem lruRemoveUnlinkedIdem_witness : lru_remove 0 emptySt = some emptySt :=
  lruRemoveUnlinkedIdem 0 emptySt rfl

/-- C9: every state reachable from the empty LRU state by lru_add on
unlinked records, lru_remove, and successful swap_out excisions
satisfies the structural invariant: the linked records form one
circular doubly-linked list (abstracted by a duplicate-free ring list
that the next fields trace forward and the prev fields trace backward),
the head is a member when any record is linked and null when none is,
every unlinked record has both links null, and every link is coherent:
next then prev, and prev then next, return to the record. -/
theorem lruStructuralInvariant (s : Kst) (h : Reaches s) : Inv s ∧ backOk s :=
  ⟨reaches_inv s h, Inv_backOk s (reaches_inv s h)⟩

/-- C9 witness: the state after one lru_add on the empty state. -/
theorem lruStructuralInvariant_witness : Inv theAdded ∧ backOk theAdded :=
  lruStructuralInvariant theAdded
    (Reaches.add emptySt theAdded 4096
      (Reaches.init emptySt (fun _ => ⟨rfl, rfl⟩) rfl) rfl rfl)

/-- C10: kfree panics exactly on a misaligned address, an address below
the end of the kernel image, or an address at or above PHYSTOP; on any
other argument it fills the page with the poison byte 1 (before taking
the free-list lock, as the trace shows) and pushes it onto the head of
the free list, touching no other memory. -/
theorem kfreePanicAndPoison (endAddr phystop pa : Nat) (s : Kst) :
    (kfree endAddr phystop pa s = none ↔
      (pa % PGSIZE ≠ 0 ∨ pa < endAddr ∨ phystop ≤ pa)) ∧
    (∀ s1 tr, kfree endAddr phystop pa s = some (s1, tr) →
      s1.freelist = pa :: s.freelist ∧
      (∀ a, pa ≤ a → a < pa + PGSIZE → s1.mem a = 1) ∧
      (∀ a, a < pa ∨ pa + PGSIZE ≤ a → s1.mem a = s.mem a) ∧
      tr = [Ev.memsetEv pa 1, Ev.acqKmem, Ev.pushEv pa, Ev.relKmem]) := by
  constructor
  · by_cases hc : pa % PGSIZE ≠ 0 ∨ pa < endAddr ∨ phystop ≤ pa
    · unfold kfree
      rw [if_pos hc]
      simp [hc]
    · unfold kfree
      rw [if_neg hc]
      simp [hc]
  · intro s1 tr h
    unfold kfree at h
    by_cases hc : pa % PGSIZE ≠ 0 ∨ pa < endAddr ∨ phystop ≤ pa
    · rw [if_pos hc] at h
      cases h
    · rw [if_neg hc] at h
      simp only [Option.some.injEq, Prod.mk.injEq] at h
      obtain ⟨rfl, rfl⟩ := h
      refine ⟨rfl, ?_, ?_, rfl⟩
      · intro a h1 h2
        simp [h1, h2]
      · intro a ha
        have hno : ¬(pa ≤ a ∧ a < pa + PGSIZE) := by omega
        simp [hno]

/-- C10 witness: freeing the aligned page at 4096 with the kernel image
ending at 4096 and PHYSTOP at 12288. -/
theorem kfreePanicAndPoison_witness :
    (kfree 4096 12288 4096 emptySt = none ↔
      ((4096 : Nat) % PGSIZE ≠ 0 ∨ (4096 : Nat) < 4096 ∨ (12288 : Nat) ≤ 4096)) ∧
    (∀ s1 tr, kfree 4096 12288 4096 emptySt = some (s1, tr) →
      s1.freelist = 4096 :: emptySt.freelist ∧
      (∀ a, 4096 ≤ a → a < 4096 + PGSIZE → s1.mem a = 1) ∧
      (∀ a, a < 4096 ∨ 4096 + PGSIZE ≤ a → s1.mem a = emptySt.mem a) ∧
      tr = [Ev.memsetEv 4096 1, Ev.acqKmem, Ev.pushEv 4096, Ev.relKmem]) :=
  kfreePanicAndPoison 4096 12288 4096 emptySt

end PA4
